import Mathlib

/-!
Verification of the C++ MCP analyzer (mcp_server package) against its
natural-language specification.

The Python source is shallowly embedded: Python dicts become association
lists (`List (String × β)`, key order = insertion order, first occurrence
read by lookup), Python sets of strings become lists read only through
membership, dataclass `SymbolInfo` becomes a Lean structure, and fallible
code returns `Except`/`Option`.  Each definition carries the name of the
Python function it embeds (file and line numbers refer to the repository
sources under `src/mcp_server/`).
-/

set_option maxHeartbeats 1000000

/-- USRs (Unified Symbol Resolution strings) are plain strings. -/
abbrev USR := String

/-- Embedding of the dataclass `SymbolInfo` (symbol_info.py, lines 7-23).
The Python field `namespace` is spelled `nspace` because `namespace` is a
Lean keyword; all other field names and defaults are kept. -/
structure SymbolInfo where
  name : String
  kind : String
  file : String
  line : Nat
  column : Nat
  signature : String := ""
  is_project : Bool := true
  nspace : String := ""
  access : String := "public"
  parent_class : String := ""
  base_classes : List String := []
  usr : String := ""
  calls : List String := []
  called_by : List String := []
  deriving DecidableEq, Repr

/-! ### Association-list model of Python dicts -/

/-- Reading a Python dict: first occurrence of the key wins. -/
def lookupM {β : Type} : List (String × β) → String → Option β
  | [], _ => none
  | (k, v) :: rest, key => if k = key then some v else lookupM rest key

/-- Keys of a dict. -/
def keysOf {β : Type} (m : List (String × β)) : List String :=
  m.map (·.1)

/-- Python `del d[k]` (also models removing a key that may be absent). -/
def delKeyM {β : Type} : List (String × β) → String → List (String × β)
  | [], _ => []
  | (k', v) :: rest, k =>
      if k' = k then delKeyM rest k else (k', v) :: delKeyM rest k

/-- Python `d[k] = v`: overwrite the first occurrence in place, or append a
fresh key at the end (dict insertion order). -/
def setKeyM {β : Type} : List (String × β) → String → β → List (String × β)
  | [], k, v => [(k, v)]
  | (k', v') :: rest, k, v =>
      if k' = k then (k', v) :: rest else (k', v') :: setKeyM rest k v

/-- Python `defaultdict(list); d[k].append(x)`. -/
def appendAtM {β : Type} : List (String × List β) → String → β → List (String × List β)
  | [], k, x => [(k, [x])]
  | (k', l) :: rest, k, x =>
      if k' = k then (k', l ++ [x]) :: rest else (k', l) :: appendAtM rest k x

/-! ### CallGraphAnalyzer (call_graph.py) -/

/-- A Python `Dict[str, Set[str]]`; the value list is read only through
membership, mirroring a Python set of strings. -/
abbrev GraphMap := List (String × List String)

/-- Python `defaultdict(set); d[k].add(v)` (call_graph.py, lines 19-20). -/
def addToKey : GraphMap → String → String → GraphMap
  | [], k, v => [(k, [v])]
  | (k', l) :: rest, k, v =>
      if k' = k then (k', if v ∈ l then l else l ++ [v]) :: rest
      else (k', l) :: addToKey rest k v

/-- One step of the loop bodies in `remove_symbol` (call_graph.py, lines
32-36 and 42-46): `d[k].discard(v); if not d[k]: del d[k]`.  When `k` is
absent the defaultdict transiently creates and immediately deletes an empty
set, a net no-op. -/
def discardPrune : GraphMap → String → String → GraphMap
  | [], _, _ => []
  | (k', l) :: rest, k, v =>
      if k' = k then
        if l.filter (fun x => x ≠ v) = [] then rest
        else (k', l.filter (fun x => x ≠ v)) :: rest
      else (k', l) :: discardPrune rest k v

/-- Embedding of the `CallGraphAnalyzer` state (call_graph.py, lines 12-14):
`call_graph` maps a function USR to the set of called USRs and
`reverse_call_graph` maps a function USR to the set of caller USRs. -/
structure CallGraphAnalyzer where
  call_graph : GraphMap
  reverse_call_graph : GraphMap
  deriving DecidableEq, Repr

/-- Fresh analyzer (`__init__`, call_graph.py lines 12-14). -/
def CallGraphAnalyzer.init : CallGraphAnalyzer := ⟨[], []⟩

/-- `CallGraphAnalyzer.add_call` (call_graph.py, lines 16-20).  The Python
guard `if caller_usr and callee_usr` is string truthiness: both non-empty. -/
def CallGraphAnalyzer.add_call (s : CallGraphAnalyzer) (caller_usr callee_usr : USR) :
    CallGraphAnalyzer :=
  if caller_usr ≠ "" ∧ callee_usr ≠ "" then
    { call_graph := addToKey s.call_graph caller_usr callee_usr,
      reverse_call_graph := addToKey s.reverse_call_graph callee_usr caller_usr }
  else s

/-- `CallGraphAnalyzer.clear` (call_graph.py, lines 22-25). -/
def CallGraphAnalyzer.clearAll (_s : CallGraphAnalyzer) : CallGraphAnalyzer := ⟨[], []⟩

/-- `CallGraphAnalyzer.remove_symbol` (call_graph.py, lines 27-47): first
drop every call made by `usr` (fixing up the reverse map), then every call
to `usr` (fixing up the forward map). -/
def CallGraphAnalyzer.remove_symbol (s : CallGraphAnalyzer) (usr : USR) :
    CallGraphAnalyzer :=
  let s1 : CallGraphAnalyzer :=
    match lookupM s.call_graph usr with
    | some called_functions =>
        { call_graph := delKeyM s.call_graph usr,
          reverse_call_graph :=
            called_functions.foldl (fun r called_usr => discardPrune r called_usr usr)
              s.reverse_call_graph }
    | none => s
  match lookupM s1.reverse_call_graph usr with
  | some calling_functions =>
      { call_graph :=
          calling_functions.foldl (fun g caller_usr => discardPrune g caller_usr usr)
            s1.call_graph,
        reverse_call_graph := delKeyM s1.reverse_call_graph usr }
  | none => s1

/-- `CallGraphAnalyzer.rebuild_from_symbols` (call_graph.py, lines 49-55).
The guard `if symbol.usr and symbol.calls` is Python truthiness on a string
and a list. -/
def CallGraphAnalyzer.rebuild_from_symbols (s : CallGraphAnalyzer)
    (symbols : List SymbolInfo) : CallGraphAnalyzer :=
  symbols.foldl
    (fun s symbol =>
      if symbol.usr ≠ "" ∧ symbol.calls ≠ [] then
        symbol.calls.foldl (fun s called_usr => s.add_call symbol.usr called_usr) s
      else s)
    s.clearAll

/-- `CallGraphAnalyzer.find_callers` (call_graph.py, lines 57-59):
`reverse_call_graph.get(usr, set())`. -/
def CallGraphAnalyzer.find_callers (s : CallGraphAnalyzer) (function_usr : USR) :
    List USR :=
  (lookupM s.reverse_call_graph function_usr).getD []

/-- `CallGraphAnalyzer.find_callees` (call_graph.py, lines 61-63). -/
def CallGraphAnalyzer.find_callees (s : CallGraphAnalyzer) (function_usr : USR) :
    List USR :=
  (lookupM s.call_graph function_usr).getD []

/-- Membership of an edge in one of the two graph maps: the key is present
and the value set contains the endpoint.  This is the reading `v ∈ d[u]`
on a Python dict-of-sets. -/
def Edge (g : GraphMap) (u v : USR) : Prop :=
  v ∈ (lookupM g u).getD []

instance (g : GraphMap) (u v : USR) : Decidable (Edge g u v) := by
  unfold Edge; infer_instance


/-! ### Basic lemmas about the dict model -/

theorem lookupM_cons {β : Type} (k : String) (v : β) (rest : List (String × β))
    (key : String) :
    lookupM ((k, v) :: rest) key = if k = key then some v else lookupM rest key := rfl

theorem lookupM_eq_none {β : Type} (m : List (String × β)) (k : String) :
    lookupM m k = none ↔ k ∉ keysOf m := by
  induction m with
  | nil => simp [lookupM, keysOf]
  | cons p rest ih =>
    obtain ⟨k', v⟩ := p
    by_cases h : k' = k
    · subst h
      simp [lookupM_cons, keysOf]
    · simp [lookupM_cons, keysOf, h, ih]
      tauto

/-- Keys with no duplicates: the well-formedness every real Python dict has. -/
def NodupKeysM {β : Type} (m : List (String × β)) : Prop := (keysOf m).Nodup

theorem Edge_nil (a b : String) : ¬ Edge [] a b := by
  simp [Edge, lookupM]

theorem Edge_lookup_some (g : GraphMap) (u : String) (l : List String)
    (h : lookupM g u = some l) (b : String) : Edge g u b ↔ b ∈ l := by
  unfold Edge
  rw [h]
  rfl

theorem Edge_lookup_none (g : GraphMap) (u : String)
    (h : lookupM g u = none) (b : String) : ¬ Edge g u b := by
  unfold Edge
  rw [h]
  simp

theorem lookupM_addToKey_ne (g : GraphMap) (k v a : String) (h : ¬ k = a) :
    lookupM (addToKey g k v) a = lookupM g a := by
  induction g with
  | nil => simp [addToKey, lookupM_cons, h, lookupM]
  | cons p rest ih =>
    obtain ⟨k', l⟩ := p
    by_cases hk : k' = k
    · subst hk
      simp [addToKey, lookupM_cons, h]
    · by_cases ha : k' = a
      · subst ha
        simp [addToKey, hk, lookupM_cons]
      · simp [addToKey, hk, lookupM_cons, ha, ih]

theorem lookupM_addToKey_self (g : GraphMap) (k v : String) :
    lookupM (addToKey g k v) k =
      some (match lookupM g k with
            | none => [v]
            | some l => if v ∈ l then l else l ++ [v]) := by
  induction g with
  | nil => simp [addToKey, lookupM_cons, lookupM]
  | cons p rest ih =>
    obtain ⟨k', l⟩ := p
    by_cases hk : k' = k
    · subst hk
      simp [addToKey, lookupM_cons]
    · simp [addToKey, hk, lookupM_cons, ih]

theorem Edge_addToKey (g : GraphMap) (k v a b : String) :
    Edge (addToKey g k v) a b ↔ (a = k ∧ b = v) ∨ Edge g a b := by
  by_cases ha : a = k
  · subst ha
    unfold Edge
    rw [lookupM_addToKey_self]
    cases hg : lookupM g a with
    | none => simp
    | some l =>
      by_cases hvl : v ∈ l
      · simp only [hvl, if_true, Option.getD_some, true_and]
        constructor
        · intro h; exact Or.inr h
        · rintro (rfl | h)
          · exact hvl
          · exact h
      · simp only [hvl, if_false, Option.getD_some, List.mem_append,
          List.mem_singleton, true_and]
        tauto
  · unfold Edge
    rw [lookupM_addToKey_ne _ _ _ _ (fun h => ha h.symm)]
    simp [ha]

theorem lookupM_delKeyM {β : Type} (m : List (String × β)) (k a : String) :
    lookupM (delKeyM m k) a = if a = k then none else lookupM m a := by
  induction m with
  | nil => simp [delKeyM, lookupM]
  | cons p rest ih =>
    obtain ⟨k', v⟩ := p
    by_cases hk : k' = k
    · subst hk
      rw [show delKeyM ((k', v) :: rest) k' = delKeyM rest k' by simp [delKeyM]]
      rw [ih, lookupM_cons]
      by_cases ha : a = k'
      · simp [ha]
      · simp [ha, show ¬ k' = a from fun h => ha h.symm]
    · rw [show delKeyM ((k', v) :: rest) k = (k', v) :: delKeyM rest k by
        simp [delKeyM, hk]]
      rw [lookupM_cons, ih, lookupM_cons]
      by_cases hka : k' = a
      · subst hka
        simp [hk]
      · by_cases hak : a = k <;> simp [hka, hak, hk]

theorem Edge_delKeyM (g : GraphMap) (k a b : String) :
    Edge (delKeyM g k) a b ↔ ¬ a = k ∧ Edge g a b := by
  unfold Edge
  rw [lookupM_delKeyM]
  by_cases ha : a = k <;> simp [ha]

theorem keysOf_cons {β : Type} (p : String × β) (rest : List (String × β)) :
    keysOf (p :: rest) = p.1 :: keysOf rest := rfl

theorem nodupKeysM_cons {β : Type} (k : String) (v : β) (rest : List (String × β)) :
    NodupKeysM ((k, v) :: rest) ↔ k ∉ keysOf rest ∧ NodupKeysM rest := by
  simp [NodupKeysM, keysOf, List.nodup_cons]

theorem discardPrune_cons (k' : String) (l : List String) (rest : GraphMap)
    (k v : String) :
    discardPrune ((k', l) :: rest) k v =
      if k' = k then
        (if l.filter (fun x => x ≠ v) = [] then rest
         else (k', l.filter (fun x => x ≠ v)) :: rest)
      else (k', l) :: discardPrune rest k v := rfl

theorem lookupM_discardPrune_ne (g : GraphMap) (k v a : String) (h : ¬ a = k) :
    lookupM (discardPrune g k v) a = lookupM g a := by
  induction g with
  | nil => rfl
  | cons p rest ih =>
    obtain ⟨k', l⟩ := p
    by_cases hk : k' = k
    · subst hk
      rw [discardPrune_cons, if_pos rfl]
      by_cases hl : l.filter (fun x => x ≠ v) = []
      · rw [if_pos hl, lookupM_cons, if_neg (fun hh : k' = a => h hh.symm)]
      · rw [if_neg hl, lookupM_cons, lookupM_cons,
          if_neg (fun hh : k' = a => h hh.symm), if_neg (fun hh : k' = a => h hh.symm)]
    · rw [discardPrune_cons, if_neg hk, lookupM_cons, lookupM_cons, ih]

theorem lookupM_discardPrune_none (g : GraphMap) (k v : String)
    (h : lookupM g k = none) :
    lookupM (discardPrune g k v) k = none := by
  induction g with
  | nil => rfl
  | cons p rest ih =>
    obtain ⟨k', l⟩ := p
    by_cases hk : k' = k
    · subst hk
      rw [lookupM_cons, if_pos rfl] at h
      exact absurd h (by simp)
    · rw [lookupM_cons, if_neg hk] at h
      rw [discardPrune_cons, if_neg hk, lookupM_cons, if_neg hk]
      exact ih h

theorem lookupM_discardPrune_some (g : GraphMap) (k v : String) (l : List String)
    (hnd : NodupKeysM g) (h : lookupM g k = some l) :
    lookupM (discardPrune g k v) k =
      if l.filter (fun x => x ≠ v) = [] then none
      else some (l.filter (fun x => x ≠ v)) := by
  induction g with
  | nil => exact absurd h (by simp [lookupM])
  | cons p rest ih =>
    obtain ⟨k', l0⟩ := p
    rw [nodupKeysM_cons] at hnd
    obtain ⟨hknotin, hnd2⟩ := hnd
    by_cases hk : k' = k
    · subst hk
      rw [lookupM_cons, if_pos rfl] at h
      have hl0 : l0 = l := by injection h
      subst hl0
      rw [discardPrune_cons, if_pos rfl]
      by_cases hl : l0.filter (fun x => x ≠ v) = []
      · rw [if_pos hl, if_pos hl]
        exact (lookupM_eq_none rest k').mpr hknotin
      · rw [if_neg hl, if_neg hl, lookupM_cons, if_pos rfl]
    · rw [lookupM_cons, if_neg hk] at h
      rw [discardPrune_cons, if_neg hk, lookupM_cons, if_neg hk]
      exact ih hnd2 h

theorem mem_filter_ne (l : List String) (v b : String) :
    b ∈ l.filter (fun x => x ≠ v) ↔ b ∈ l ∧ ¬ b = v := by
  simp [List.mem_filter]

theorem Edge_discardPrune (g : GraphMap) (k v a b : String) (hnd : NodupKeysM g) :
    Edge (discardPrune g k v) a b ↔ Edge g a b ∧ ¬ (a = k ∧ b = v) := by
  by_cases ha : a = k
  · subst ha
    cases hg : lookupM g a with
    | none =>
      rw [iff_false_intro (Edge_lookup_none g a hg b)]
      rw [iff_false_intro
        (Edge_lookup_none _ a (lookupM_discardPrune_none g a v hg) b)]
      simp
    | some l =>
      rw [Edge_lookup_some g a l hg]
      unfold Edge
      rw [lookupM_discardPrune_some g a v l hnd hg]
      by_cases hl : l.filter (fun x => x ≠ v) = []
      · rw [if_pos hl]
        simp only [Option.getD_none, List.not_mem_nil, false_iff]
        intro hcon
        obtain ⟨hbl, hcon2⟩ := hcon
        have hmem : b ∈ l.filter (fun x => x ≠ v) :=
          (mem_filter_ne l v b).mpr ⟨hbl, by tauto⟩
        rw [hl] at hmem
        exact absurd hmem (List.not_mem_nil b)
      · rw [if_neg hl]
        simp only [Option.getD_some]
        rw [mem_filter_ne]
        tauto
  · unfold Edge
    rw [lookupM_discardPrune_ne g k v a ha]
    tauto

/-! ### Key-set lemmas and Nodup preservation -/

theorem keysOf_discardPrune_sublist (g : GraphMap) (k v : String) :
    (keysOf (discardPrune g k v)).Sublist (keysOf g) := by
  induction g with
  | nil => exact List.Sublist.refl _
  | cons p rest ih =>
    obtain ⟨k', l⟩ := p
    by_cases hk : k' = k
    · subst hk
      rw [discardPrune_cons, if_pos rfl]
      by_cases hl : l.filter (fun x => x ≠ v) = []
      · rw [if_pos hl, keysOf_cons]
        exact List.sublist_cons_self _ _
      · rw [if_neg hl, keysOf_cons, keysOf_cons]
    · rw [discardPrune_cons, if_neg hk, keysOf_cons, keysOf_cons]
      exact List.Sublist.cons₂ _ ih

theorem nodup_discardPrune (g : GraphMap) (k v : String) (h : NodupKeysM g) :
    NodupKeysM (discardPrune g k v) :=
  (keysOf_discardPrune_sublist g k v).nodup h

theorem keysOf_delKeyM_sublist {β : Type} (m : List (String × β)) (k : String) :
    (keysOf (delKeyM m k)).Sublist (keysOf m) := by
  induction m with
  | nil => exact List.Sublist.refl _
  | cons p rest ih =>
    obtain ⟨k', v⟩ := p
    by_cases hk : k' = k
    · subst hk
      rw [show delKeyM ((k', v) :: rest) k' = delKeyM rest k' by simp [delKeyM]]
      rw [keysOf_cons]
      exact ih.trans (List.sublist_cons_self _ _)
    · rw [show delKeyM ((k', v) :: rest) k = (k', v) :: delKeyM rest k by
        simp [delKeyM, hk]]
      rw [keysOf_cons, keysOf_cons]
      exact List.Sublist.cons₂ _ ih

theorem nodup_delKeyM {β : Type} (m : List (String × β)) (k : String)
    (h : NodupKeysM m) : NodupKeysM (delKeyM m k) :=
  (keysOf_delKeyM_sublist m k).nodup h

theorem addToKey_cons (k' : String) (l : List String) (rest : GraphMap)
    (k v : String) :
    addToKey ((k', l) :: rest) k v =
      if k' = k then (k', if v ∈ l then l else l ++ [v]) :: rest
      else (k', l) :: addToKey rest k v := rfl

theorem mem_keysOf_addToKey (g : GraphMap) (k v a : String)
    (h : a ∈ keysOf (addToKey g k v)) : a ∈ keysOf g ∨ a = k := by
  induction g with
  | nil =>
    simp only [addToKey, keysOf, List.map_cons, List.map_nil,
      List.mem_singleton] at h
    exact Or.inr h
  | cons p rest ih =>
    obtain ⟨k', l⟩ := p
    by_cases hk : k' = k
    · subst hk
      rw [addToKey_cons, if_pos rfl, keysOf_cons] at h
      rw [keysOf_cons]
      exact Or.inl h
    · rw [addToKey_cons, if_neg hk, keysOf_cons, List.mem_cons] at h
      rw [keysOf_cons, List.mem_cons]
      rcases h with h | h
      · exact Or.inl (Or.inl h)
      · rcases ih h with h2 | h2
        · exact Or.inl (Or.inr h2)
        · exact Or.inr h2

theorem nodup_addToKey (g : GraphMap) (k v : String) (h : NodupKeysM g) :
    NodupKeysM (addToKey g k v) := by
  induction g with
  | nil => simp [addToKey, NodupKeysM, keysOf]
  | cons p rest ih =>
    obtain ⟨k', l⟩ := p
    rw [nodupKeysM_cons] at h
    obtain ⟨hknotin, hnd2⟩ := h
    by_cases hk : k' = k
    · subst hk
      rw [addToKey_cons, if_pos rfl]
      rw [show ((k', if v ∈ l then l else l ++ [v]) :: rest :
        List (String × List String)) = ((k', if v ∈ l then l else l ++ [v]) :: rest)
        from rfl]
      exact (nodupKeysM_cons _ _ _).mpr ⟨hknotin, hnd2⟩
    · rw [addToKey_cons, if_neg hk]
      refine (nodupKeysM_cons _ _ _).mpr ⟨fun hmem => ?_, ih hnd2⟩
      rcases mem_keysOf_addToKey rest k v k' hmem with h2 | h2
      · exact hknotin h2
      · exact hk h2

/-! ### Folded discard over a list of keys -/

theorem nodup_foldDiscard (called : List String) (r : GraphMap) (usr : String)
    (h : NodupKeysM r) :
    NodupKeysM (called.foldl (fun r c => discardPrune r c usr) r) := by
  induction called generalizing r with
  | nil => exact h
  | cons c rest ih =>
    rw [List.foldl_cons]
    exact ih _ (nodup_discardPrune r c usr h)

theorem Edge_foldDiscard (called : List String) (r : GraphMap) (usr a b : String)
    (h : NodupKeysM r) :
    Edge (called.foldl (fun r c => discardPrune r c usr) r) a b ↔
      Edge r a b ∧ ¬ (a ∈ called ∧ b = usr) := by
  induction called generalizing r with
  | nil => simp
  | cons c rest ih =>
    rw [List.foldl_cons]
    rw [ih _ (nodup_discardPrune r c usr h)]
    rw [Edge_discardPrune r c usr a b h]
    constructor
    · rintro ⟨⟨hE, h1⟩, h2⟩
      refine ⟨hE, fun hcon => ?_⟩
      obtain ⟨hmem, hbu⟩ := hcon
      rcases List.mem_cons.mp hmem with hac | har
      · exact h1 ⟨hac, hbu⟩
      · exact h2 ⟨har, hbu⟩
    · rintro ⟨hE, hno⟩
      refine ⟨⟨hE, fun hcon => hno ⟨List.mem_cons.mpr (Or.inl hcon.1), hcon.2⟩⟩,
        fun hcon => hno ⟨List.mem_cons.mpr (Or.inr hcon.1), hcon.2⟩⟩

/-! ### Call-graph symmetry invariant (claim C5) -/

/-- Symmetry of the two maps: `v ∈ callees[u] ⇔ u ∈ callers[v]`. -/
def Symm (s : CallGraphAnalyzer) : Prop :=
  ∀ u v, Edge s.call_graph u v ↔ Edge s.reverse_call_graph v u

/-- Well-formedness carried through every operation: Python dicts have
no duplicate keys, and the two maps are symmetric. -/
def WFcg (s : CallGraphAnalyzer) : Prop :=
  NodupKeysM s.call_graph ∧ NodupKeysM s.reverse_call_graph ∧ Symm s

/-- One phase of `remove_symbol` as a pure function on the two maps:
drop key `usr` from the first map and discard `usr` from each set of the
second map listed under the first map's entry for `usr`. -/
def removePhase (f r : GraphMap) (usr : USR) : GraphMap × GraphMap :=
  match lookupM f usr with
  | some called =>
      (delKeyM f usr, called.foldl (fun r c => discardPrune r c usr) r)
  | none => (f, r)

theorem remove_symbol_eq (s : CallGraphAnalyzer) (usr : USR) :
    s.remove_symbol usr =
      CallGraphAnalyzer.mk
        (removePhase (removePhase s.call_graph s.reverse_call_graph usr).2
          (removePhase s.call_graph s.reverse_call_graph usr).1 usr).2
        (removePhase (removePhase s.call_graph s.reverse_call_graph usr).2
          (removePhase s.call_graph s.reverse_call_graph usr).1 usr).1 := by
  unfold CallGraphAnalyzer.remove_symbol removePhase
  cases h1 : lookupM s.call_graph usr with
  | none =>
    dsimp only
    cases h2 : lookupM s.reverse_call_graph usr with
    | none => rfl
    | some c => rfl
  | some c =>
    dsimp only
    cases h2 : lookupM
        (List.foldl (fun r cc => discardPrune r cc usr) s.reverse_call_graph c) usr with
    | none => rfl
    | some d => rfl

theorem phase_symm (f r : GraphMap) (usr : USR)
    (hf : NodupKeysM f) (hr : NodupKeysM r)
    (hs : ∀ a b, Edge f a b ↔ Edge r b a) :
    (∀ a b, Edge (removePhase f r usr).1 a b ↔ Edge (removePhase f r usr).2 b a) ∧
      NodupKeysM (removePhase f r usr).1 ∧ NodupKeysM (removePhase f r usr).2 := by
  unfold removePhase
  cases hlk : lookupM f usr with
  | none => exact ⟨hs, hf, hr⟩
  | some called =>
    refine ⟨fun a b => ?_, nodup_delKeyM _ _ hf, nodup_foldDiscard _ _ _ hr⟩
    rw [Edge_delKeyM, Edge_foldDiscard _ _ _ _ _ hr]
    have hmem : ∀ x, x ∈ called ↔ Edge f usr x :=
      fun x => (Edge_lookup_some f usr called hlk x).symm
    have hsab := hs a b
    by_cases hau : a = usr
    · subst hau
      rw [hmem b]
      tauto
    · constructor
      · rintro ⟨_, hE⟩
        exact ⟨hsab.mp hE, fun hcon => hau hcon.2⟩
      · rintro ⟨hE, _⟩
        exact ⟨hau, hsab.mpr hE⟩

theorem wf_remove_symbol (s : CallGraphAnalyzer) (usr : USR) (h : WFcg s) :
    WFcg (s.remove_symbol usr) := by
  obtain ⟨h1, h2, hs⟩ := h
  rw [remove_symbol_eq]
  have H1 := phase_symm s.call_graph s.reverse_call_graph usr h1 h2 hs
  obtain ⟨hsym1, hnd1a, hnd1b⟩ := H1
  have H2 := phase_symm (removePhase s.call_graph s.reverse_call_graph usr).2
    (removePhase s.call_graph s.reverse_call_graph usr).1 usr hnd1b hnd1a
    (fun a b => (hsym1 b a).symm)
  obtain ⟨hsym2, hnd2a, hnd2b⟩ := H2
  exact ⟨hnd2b, hnd2a, fun u v => (hsym2 v u).symm⟩

theorem wf_add_call (s : CallGraphAnalyzer) (u v : USR) (h : WFcg s) :
    WFcg (s.add_call u v) := by
  unfold CallGraphAnalyzer.add_call
  by_cases hc : u ≠ "" ∧ v ≠ ""
  · rw [if_pos hc]
    obtain ⟨h1, h2, hs⟩ := h
    refine ⟨nodup_addToKey _ _ _ h1, nodup_addToKey _ _ _ h2, fun a b => ?_⟩
    show Edge (addToKey s.call_graph u v) a b ↔
      Edge (addToKey s.reverse_call_graph v u) b a
    rw [Edge_addToKey, Edge_addToKey]
    have := hs a b
    tauto
  · rw [if_neg hc]
    exact h

theorem wf_clearAll (s : CallGraphAnalyzer) : WFcg s.clearAll :=
  ⟨List.nodup_nil, List.nodup_nil, fun u v =>
    iff_of_false (Edge_nil u v) (Edge_nil v u)⟩

theorem wf_fold_add (calls : List String) (u : String) (s : CallGraphAnalyzer)
    (h : WFcg s) : WFcg (calls.foldl (fun s c => s.add_call u c) s) := by
  induction calls generalizing s with
  | nil => exact h
  | cons c rest ih =>
    rw [List.foldl_cons]
    exact ih _ (wf_add_call _ _ _ h)

theorem wf_rebuild (s : CallGraphAnalyzer) (symbols : List SymbolInfo) :
    WFcg (s.rebuild_from_symbols symbols) := by
  unfold CallGraphAnalyzer.rebuild_from_symbols
  have hinit : WFcg s.clearAll := wf_clearAll s
  generalize s.clearAll = t at hinit ⊢
  induction symbols generalizing t with
  | nil => exact hinit
  | cons sym rest ih =>
    rw [List.foldl_cons]
    by_cases hg : sym.usr ≠ "" ∧ sym.calls ≠ []
    · refine ih _ ?_
      rw [if_pos hg]
      exact wf_fold_add _ _ _ hinit
    · refine ih _ ?_
      rw [if_neg hg]
      exact hinit

/-- The four mutating operations of `CallGraphAnalyzer`. -/
inductive CGOp where
  | addCall (u v : USR)
  | removeSymbol (u : USR)
  | rebuild (symbols : List SymbolInfo)
  | clearGraph
  deriving Repr

/-- Apply one operation. -/
def applyCGOp (s : CallGraphAnalyzer) : CGOp → CallGraphAnalyzer
  | CGOp.addCall u v => s.add_call u v
  | CGOp.removeSymbol u => s.remove_symbol u
  | CGOp.rebuild symbols => s.rebuild_from_symbols symbols
  | CGOp.clearGraph => s.clearAll

/-- Run a whole sequence of operations from a fresh analyzer. -/
def runCGOps (ops : List CGOp) : CallGraphAnalyzer :=
  ops.foldl applyCGOp CallGraphAnalyzer.init

theorem wf_applyCGOp (s : CallGraphAnalyzer) (op : CGOp) (h : WFcg s) :
    WFcg (applyCGOp s op) := by
  cases op with
  | addCall u v => exact wf_add_call s u v h
  | removeSymbol u => exact wf_remove_symbol s u h
  | rebuild symbols => exact wf_rebuild s symbols
  | clearGraph => exact wf_clearAll s

theorem wf_foldCGOps (ops : List CGOp) (s : CallGraphAnalyzer) (h : WFcg s) :
    WFcg (ops.foldl applyCGOp s) := by
  induction ops generalizing s with
  | nil => exact h
  | cons op rest ih =>
    rw [List.foldl_cons]
    exact ih _ (wf_applyCGOp s op h)

theorem wf_init : WFcg CallGraphAnalyzer.init :=
  ⟨List.nodup_nil, List.nodup_nil, fun u v =>
    iff_of_false (Edge_nil u v) (Edge_nil v u)⟩

theorem wf_runCGOps (ops : List CGOp) : WFcg (runCGOps ops) :=
  wf_foldCGOps ops CallGraphAnalyzer.init wf_init

/-- C5: after every sequence of CallGraphAnalyzer operations (add_call,
remove_symbol, rebuild_from_symbols, clear) starting from a fresh analyzer,
`v ∈ call_graph[u]` holds exactly when `u ∈ reverse_call_graph[v]`: the
forward and reverse call-graph maps are symmetric. -/
theorem C5_call_graph_symmetry (ops : List CGOp) (u v : USR) :
    Edge (runCGOps ops).call_graph u v ↔
      Edge (runCGOps ops).reverse_call_graph v u :=
  (wf_runCGOps ops).2.2 u v

/-! ### No empty USR in the call graph (claim C10) -/

/-- Every key is a non-empty USR and no stored set contains the empty USR. -/
def NoEmptyG (g : GraphMap) : Prop :=
  ∀ p ∈ g, p.1 ≠ "" ∧ "" ∉ p.2

theorem mem_delKeyM {β : Type} (m : List (String × β)) (k : String)
    (p : String × β) (hp : p ∈ delKeyM m k) : p ∈ m := by
  induction m with
  | nil => cases hp
  | cons q rest ih =>
    obtain ⟨k', v⟩ := q
    by_cases hk : k' = k
    · rw [show delKeyM ((k', v) :: rest) k = delKeyM rest k by
        simp [delKeyM, hk]] at hp
      exact List.mem_cons.mpr (Or.inr (ih hp))
    · rw [show delKeyM ((k', v) :: rest) k = (k', v) :: delKeyM rest k by
        simp [delKeyM, hk]] at hp
      rcases List.mem_cons.mp hp with heq | hmem
      · exact List.mem_cons.mpr (Or.inl heq)
      · exact List.mem_cons.mpr (Or.inr (ih hmem))

theorem mem_discardPrune (g : GraphMap) (k v : String) (p : String × List String)
    (hp : p ∈ discardPrune g k v) :
    ∃ q ∈ g, p.1 = q.1 ∧ ∀ x ∈ p.2, x ∈ q.2 := by
  induction g with
  | nil => cases hp
  | cons q0 rest ih =>
    obtain ⟨k', l⟩ := q0
    rw [discardPrune_cons] at hp
    by_cases hk : k' = k
    · rw [if_pos hk] at hp
      by_cases hl : l.filter (fun x => x ≠ v) = []
      · rw [if_pos hl] at hp
        exact ⟨p, List.mem_cons.mpr (Or.inr hp), rfl, fun x hx => hx⟩
      · rw [if_neg hl] at hp
        rcases List.mem_cons.mp hp with heq | hmem
        · subst heq
          exact ⟨(k', l), List.mem_cons.mpr (Or.inl rfl), rfl,
            fun x hx => (List.mem_filter.mp hx).1⟩
        · exact ⟨p, List.mem_cons.mpr (Or.inr hmem), rfl, fun x hx => hx⟩
    · rw [if_neg hk] at hp
      rcases List.mem_cons.mp hp with heq | hmem
      · subst heq
        exact ⟨(k', l), List.mem_cons.mpr (Or.inl rfl), rfl, fun x hx => hx⟩
      · obtain ⟨q, hq, h1, h2⟩ := ih hmem
        exact ⟨q, List.mem_cons.mpr (Or.inr hq), h1, h2⟩

theorem noempty_discardPrune (g : GraphMap) (k v : String) (h : NoEmptyG g) :
    NoEmptyG (discardPrune g k v) := by
  intro p hp
  obtain ⟨q, hq, h1, h2⟩ := mem_discardPrune g k v p hp
  obtain ⟨hq1, hq2⟩ := h q hq
  exact ⟨fun he => hq1 (h1.symm.trans he), fun hx => hq2 (h2 "" hx)⟩

theorem noempty_foldDiscard (called : List String) (r : GraphMap) (usr : String)
    (h : NoEmptyG r) :
    NoEmptyG (called.foldl (fun r c => discardPrune r c usr) r) := by
  induction called generalizing r with
  | nil => exact h
  | cons c rest ih =>
    rw [List.foldl_cons]
    exact ih _ (noempty_discardPrune r c usr h)

theorem noempty_addToKey (g : GraphMap) (k v : String) (h : NoEmptyG g)
    (hk : k ≠ "") (hv : v ≠ "") : NoEmptyG (addToKey g k v) := by
  induction g with
  | nil =>
    intro p hp
    rcases List.mem_singleton.mp hp with heq
    subst heq
    refine ⟨hk, ?_⟩
    intro hx
    exact hv (List.mem_singleton.mp hx).symm
  | cons q rest ih =>
    obtain ⟨k', l⟩ := q
    intro p hp
    rw [addToKey_cons] at hp
    by_cases hkk : k' = k
    · rw [if_pos hkk] at hp
      rcases List.mem_cons.mp hp with heq | hmem
      · subst heq
        obtain ⟨h1, h2⟩ := h (k', l) (List.mem_cons.mpr (Or.inl rfl))
        refine ⟨h1, ?_⟩
        by_cases hvl : v ∈ l
        · rw [if_pos hvl]
          exact h2
        · rw [if_neg hvl]
          intro hx
          rcases List.mem_append.mp hx with hx | hx
          · exact h2 hx
          · exact hv (List.mem_singleton.mp hx).symm
      · exact h p (List.mem_cons.mpr (Or.inr hmem))
    · rw [if_neg hkk] at hp
      rcases List.mem_cons.mp hp with heq | hmem
      · subst heq
        exact h _ (List.mem_cons.mpr (Or.inl rfl))
      · exact ih (fun q hq => h q (List.mem_cons.mpr (Or.inr hq))) p hmem

/-- Both maps of an analyzer state are free of the empty USR. -/
def NoEmptyCG (s : CallGraphAnalyzer) : Prop :=
  NoEmptyG s.call_graph ∧ NoEmptyG s.reverse_call_graph

theorem noempty_add_call (s : CallGraphAnalyzer) (u v : USR) (h : NoEmptyCG s) :
    NoEmptyCG (s.add_call u v) := by
  unfold CallGraphAnalyzer.add_call
  by_cases hc : u ≠ "" ∧ v ≠ ""
  · rw [if_pos hc]
    exact ⟨noempty_addToKey _ _ _ h.1 hc.1 hc.2,
      noempty_addToKey _ _ _ h.2 hc.2 hc.1⟩
  · rw [if_neg hc]
    exact h

theorem noempty_removePhase (f r : GraphMap) (usr : USR)
    (hf : NoEmptyG f) (hr : NoEmptyG r) :
    NoEmptyG (removePhase f r usr).1 ∧ NoEmptyG (removePhase f r usr).2 := by
  unfold removePhase
  cases lookupM f usr with
  | none => exact ⟨hf, hr⟩
  | some called =>
    exact ⟨fun p hp => hf p (mem_delKeyM _ _ p hp),
      noempty_foldDiscard called r usr hr⟩

theorem noempty_remove_symbol (s : CallGraphAnalyzer) (usr : USR)
    (h : NoEmptyCG s) : NoEmptyCG (s.remove_symbol usr) := by
  rw [remove_symbol_eq]
  obtain ⟨ha, hb⟩ := noempty_removePhase s.call_graph s.reverse_call_graph usr h.1 h.2
  obtain ⟨hc, hd⟩ := noempty_removePhase _ _ usr hb ha
  exact ⟨hd, hc⟩

theorem noempty_clearAll (s : CallGraphAnalyzer) : NoEmptyCG s.clearAll :=
  ⟨fun p hp => absurd hp (List.not_mem_nil p), fun p hp => absurd hp (List.not_mem_nil p)⟩

theorem noempty_fold_add (calls : List String) (u : String)
    (s : CallGraphAnalyzer) (h : NoEmptyCG s) :
    NoEmptyCG (calls.foldl (fun s c => s.add_call u c) s) := by
  induction calls generalizing s with
  | nil => exact h
  | cons c rest ih =>
    rw [List.foldl_cons]
    exact ih _ (noempty_add_call _ _ _ h)

theorem noempty_rebuild (s : CallGraphAnalyzer) (symbols : List SymbolInfo) :
    NoEmptyCG (s.rebuild_from_symbols symbols) := by
  unfold CallGraphAnalyzer.rebuild_from_symbols
  have hinit : NoEmptyCG s.clearAll := noempty_clearAll s
  generalize s.clearAll = t at hinit ⊢
  induction symbols generalizing t with
  | nil => exact hinit
  | cons sym rest ih =>
    rw [List.foldl_cons]
    by_cases hg : sym.usr ≠ "" ∧ sym.calls ≠ []
    · refine ih _ ?_
      rw [if_pos hg]
      exact noempty_fold_add _ _ _ hinit
    · refine ih _ ?_
      rw [if_neg hg]
      exact hinit

theorem noempty_applyCGOp (s : CallGraphAnalyzer) (op : CGOp) (h : NoEmptyCG s) :
    NoEmptyCG (applyCGOp s op) := by
  cases op with
  | addCall u v => exact noempty_add_call s u v h
  | removeSymbol u => exact noempty_remove_symbol s u h
  | rebuild symbols => exact noempty_rebuild s symbols
  | clearGraph => exact noempty_clearAll s

theorem noempty_runCGOps (ops : List CGOp) : NoEmptyCG (runCGOps ops) := by
  unfold runCGOps
  have hinit : NoEmptyCG CallGraphAnalyzer.init := noempty_clearAll CallGraphAnalyzer.init
  generalize CallGraphAnalyzer.init = t at hinit ⊢
  induction ops generalizing t with
  | nil => exact hinit
  | cons op rest ih =>
    rw [List.foldl_cons]
    exact ih _ (noempty_applyCGOp t op hinit)

/-- C10: the empty string never appears as a node in the call graph.
`add_call` with an empty caller or callee USR leaves both maps unchanged,
and after any sequence of operations from a fresh analyzer no key of
either map and no element of any stored set is the empty USR. -/
theorem C10_empty_usr_never_in_graph (ops : List CGOp) :
    (∀ (s : CallGraphAnalyzer) (u v : USR), u = "" ∨ v = "" → s.add_call u v = s) ∧
      (∀ p ∈ (runCGOps ops).call_graph, p.1 ≠ "" ∧ "" ∉ p.2) ∧
      (∀ p ∈ (runCGOps ops).reverse_call_graph, p.1 ≠ "" ∧ "" ∉ p.2) := by
  refine ⟨?_, (noempty_runCGOps ops).1, (noempty_runCGOps ops).2⟩
  intro s u v h
  unfold CallGraphAnalyzer.add_call
  rcases h with rfl | rfl
  · rw [if_neg (fun hc => hc.1 rfl)]
  · rw [if_neg (fun hc => hc.2 rfl)]

/-- Witness for C10, discharging its hypotheses at concrete inputs. -/
theorem C10_witness :
    CallGraphAnalyzer.init.add_call "" "x" = CallGraphAnalyzer.init ∧
      ("a" ≠ "" ∧ "" ∉ ["b"]) :=
  ⟨(C10_empty_usr_never_in_graph []).1 CallGraphAnalyzer.init "" "x" (Or.inl rfl),
    (C10_empty_usr_never_in_graph [CGOp.addCall "a" "b"]).2.1 ("a", ["b"]) (by decide)⟩

/-! ### CppAnalyzer index state (cpp_analyzer.py) -/

/-- The index bundle of `CppAnalyzer` (cpp_analyzer.py, lines 45-90).
`class_index`, `function_index` and `file_index` are `defaultdict(list)`
maps from a name or path to a record list; `usr_index` maps a USR to one
record; `translation_units` is modeled by its key set (the parsed
translation-unit values are opaque); `file_hashes` maps a path to its
content hash. -/
structure CppAnalyzer where
  class_index : List (String × List SymbolInfo)
  function_index : List (String × List SymbolInfo)
  file_index : List (String × List SymbolInfo)
  usr_index : List (String × SymbolInfo)
  call_graph_analyzer : CallGraphAnalyzer
  file_hashes : List (String × String)
  translation_units : List String
  indexed_file_count : Nat
  include_dependencies : Bool
  deriving DecidableEq, Repr

/-- The idiom of `_remove_file_from_indexes` (cpp_analyzer.py, lines
643-661): `idx[name] = [i for i in idx[name] if i.file != path]` followed by
`if not idx[name]: del idx[name]`, guarded by `if name in idx`. -/
def removeNameEntries (idx : List (String × List SymbolInfo)) (name : String)
    (file_path : String) : List (String × List SymbolInfo) :=
  match lookupM idx name with
  | none => idx
  | some infos =>
      if infos.filter (fun info => info.file ≠ file_path) = [] then delKeyM idx name
      else setKeyM idx name (infos.filter (fun info => info.file ≠ file_path))

/-- Loop body of `_remove_file_from_indexes` (cpp_analyzer.py, lines
641-669) for one symbol of the removed file. -/
def remove_file_symbol_step (st : CppAnalyzer) (file_path : String)
    (symbol : SymbolInfo) : CppAnalyzer :=
  let st1 :=
    if symbol.kind = "class" ∨ symbol.kind = "struct" then
      { st with class_index := removeNameEntries st.class_index symbol.name file_path }
    else if symbol.kind = "function" ∨ symbol.kind = "method" then
      { st with function_index := removeNameEntries st.function_index symbol.name file_path }
    else st
  let st2 :=
    if symbol.usr ≠ "" ∧ (lookupM st1.usr_index symbol.usr).isSome then
      { st1 with usr_index := delKeyM st1.usr_index symbol.usr }
    else st1
  if symbol.usr ≠ "" then
    { st2 with call_graph_analyzer := st2.call_graph_analyzer.remove_symbol symbol.usr }
  else st2

/-- `CppAnalyzer._remove_file_from_indexes` (cpp_analyzer.py, lines 634-673). -/
def remove_file_from_indexes (st : CppAnalyzer) (file_path : String) : CppAnalyzer :=
  let symbols_to_remove := (lookupM st.file_index file_path).getD []
  let st1 := symbols_to_remove.foldl
    (fun st symbol => remove_file_symbol_step st file_path symbol) st
  { st1 with file_index := delKeyM st1.file_index file_path }

/-- `CppAnalyzer.refresh_if_needed` (cpp_analyzer.py, lines 585-632).  The
scanner output is passed in as `current_files` (line 591).  For each tracked
file missing from it, the loop (lines 598-607) removes the file from the
indexes and the tracking maps, and then calls
`self.cache_manager.remove_file_cache(file_path)` (line 606).  `CacheManager`
(cache_manager.py, lines 14-201) defines no method of that name, so this
attribute access raises `AttributeError` and the refresh aborts without
returning a count.  The modification and new-file loops (lines 609-625) run
only when no file was deleted; they parse files through libclang and are
abstracted here by the `rest` parameter. -/
def refresh_if_needed (rest : CppAnalyzer → Except String (CppAnalyzer × Nat))
    (current_files : List String) (st : CppAnalyzer) :
    Except String (CppAnalyzer × Nat) :=
  let tracked_files := keysOf st.file_hashes
  let deleted_files := tracked_files.filter (fun f => ¬ f ∈ current_files)
  match deleted_files with
  | [] => rest st
  | file_path :: _ =>
      let st1 := remove_file_from_indexes st file_path
      let _st2 : CppAnalyzer := { st1 with
        file_hashes := delKeyM st1.file_hashes file_path,
        translation_units := st1.translation_units.filter (fun f => f ≠ file_path) }
      Except.error "AttributeError: CacheManager object has no attribute remove_file_cache"

/-! ### index_file cache-hit merge (claim C2) -/

/-- Loop body of the clearing pass in `CppAnalyzer.index_file`
(cpp_analyzer.py, lines 248-256): by-name entries of the file are filtered
out of `class_index` or `function_index` (a non-class kind always goes to
the `else` branch); no empty key is deleted here and nothing is removed
from `usr_index` or the call graph. -/
def clearOldEntriesStep (st : CppAnalyzer) (file_path : String)
    (info : SymbolInfo) : CppAnalyzer :=
  if info.kind = "class" ∨ info.kind = "struct" then
    let filtered := ((lookupM st.class_index info.name).getD []).filter
      (fun i => i.file ≠ file_path)
    { st with class_index := setKeyM st.class_index info.name filtered }
  else
    let filtered := ((lookupM st.function_index info.name).getD []).filter
      (fun i => i.file ≠ file_path)
    { st with function_index := setKeyM st.function_index info.name filtered }

/-- Clearing pass of `CppAnalyzer.index_file` (cpp_analyzer.py, lines
246-256), guarded by `if file_path in self.file_index`. -/
def clearOldEntries (st : CppAnalyzer) (file_path : String) : CppAnalyzer :=
  match lookupM st.file_index file_path with
  | none => st
  | some olds => olds.foldl (fun st info => clearOldEntriesStep st file_path info) st

/-- Loop body of the insertion pass in `CppAnalyzer.index_file`
(cpp_analyzer.py, lines 260-276): append the cached symbol to the by-name
index for its kind, overwrite `usr_index[usr]` when the USR is non-empty,
and replay the symbol's recorded `calls` and `called_by` edges through
`add_call`. -/
def addCachedSymbol (st : CppAnalyzer) (symbol : SymbolInfo) : CppAnalyzer :=
  let st1 :=
    if symbol.kind = "class" ∨ symbol.kind = "struct" then
      { st with class_index := appendAtM st.class_index symbol.name symbol }
    else
      { st with function_index := appendAtM st.function_index symbol.name symbol }
  let st2 :=
    if symbol.usr ≠ "" then
      { st1 with usr_index := setKeyM st1.usr_index symbol.usr symbol }
    else st1
  let st3 :=
    if symbol.calls ≠ [] then
      let cg := symbol.calls.foldl
        (fun cg called_usr => cg.add_call symbol.usr called_usr)
        st2.call_graph_analyzer
      { st2 with call_graph_analyzer := cg }
    else st2
  if symbol.called_by ≠ [] then
    let cg := symbol.called_by.foldl
      (fun cg caller_usr => cg.add_call caller_usr symbol.usr)
      st3.call_graph_analyzer
    { st3 with call_graph_analyzer := cg }
  else st3

/-- The cache-hit branch of `CppAnalyzer.index_file` (cpp_analyzer.py,
lines 241-279): clear the file's old by-name entries, install
`file_index[file_path] = cached_symbols`, merge each cached symbol, and
record the file hash.  Nothing is ever removed from `usr_index` or from the
call graph on this path. -/
def index_file_cached_merge (st : CppAnalyzer) (file_path current_hash : String)
    (cached_symbols : List SymbolInfo) : CppAnalyzer :=
  let st1 := clearOldEntries st file_path
  let st2 := { st1 with file_index := setKeyM st1.file_index file_path cached_symbols }
  let st3 := cached_symbols.foldl addCachedSymbol st2
  { st3 with file_hashes := setKeyM st3.file_hashes file_path current_hash }

theorem lookupM_setKeyM {β : Type} (m : List (String × β)) (k : String) (v : β)
    (a : String) :
    lookupM (setKeyM m k v) a = if k = a then some v else lookupM m a := by
  induction m with
  | nil =>
    by_cases h : k = a <;> simp [setKeyM, lookupM_cons, h, lookupM]
  | cons p rest ih =>
    obtain ⟨k', v'⟩ := p
    by_cases hk : k' = k
    · subst hk
      by_cases ha : k' = a <;> simp [setKeyM, lookupM_cons, ha]
    · by_cases ha : k' = a
      · subst ha
        simp [setKeyM, hk, lookupM_cons, show ¬ k = k' from fun hh => hk hh.symm]
      · simp [setKeyM, hk, lookupM_cons, ha, ih]

theorem lookupM_appendAtM {β : Type} (m : List (String × List β)) (k : String)
    (x : β) (a : String) :
    lookupM (appendAtM m k x) a =
      if k = a then some ((lookupM m k).getD [] ++ [x]) else lookupM m a := by
  induction m with
  | nil =>
    by_cases h : k = a <;> simp [appendAtM, lookupM_cons, h, lookupM]
  | cons p rest ih =>
    obtain ⟨k', l⟩ := p
    by_cases hk : k' = k
    · subst hk
      by_cases ha : k' = a <;> simp [appendAtM, lookupM_cons, ha]
    · by_cases ha : k' = a
      · subst ha
        simp [appendAtM, hk, lookupM_cons, show ¬ k = k' from fun hh => hk hh.symm]
      · simp [appendAtM, hk, lookupM_cons, ha, ih]

theorem lookupM_mem {β : Type} (m : List (String × β)) (k : String) (v : β)
    (h : lookupM m k = some v) : (k, v) ∈ m := by
  induction m with
  | nil => exact absurd h (by simp [lookupM])
  | cons p rest ih =>
    obtain ⟨k', v'⟩ := p
    by_cases hk : k' = k
    · subst hk
      rw [lookupM_cons, if_pos rfl] at h
      injection h with h
      subst h
      exact List.mem_cons.mpr (Or.inl rfl)
    · rw [lookupM_cons, if_neg hk] at h
      exact List.mem_cons.mpr (Or.inr (ih h))

/-- C1: when a tracked file has disappeared from the scanner output,
`refresh_if_needed` does not remove the file from both caches and return a
count; it aborts with an AttributeError, because the call
`self.cache_manager.remove_file_cache(file_path)` (cpp_analyzer.py, line
606) names a method that `CacheManager` does not define. -/
theorem C1_refresh_deletion_raises
    (rest : CppAnalyzer → Except String (CppAnalyzer × Nat))
    (current_files : List String) (st : CppAnalyzer) (f : String)
    (hf : f ∈ keysOf st.file_hashes) (hnot : ¬ f ∈ current_files) :
    refresh_if_needed rest current_files st =
      Except.error
        "AttributeError: CacheManager object has no attribute remove_file_cache" := by
  unfold refresh_if_needed
  dsimp only
  have hmem : f ∈ (keysOf st.file_hashes).filter (fun f => ¬ f ∈ current_files) :=
    List.mem_filter.mpr ⟨hf, by simpa using hnot⟩
  cases hd : (keysOf st.file_hashes).filter (fun f => ¬ f ∈ current_files) with
  | nil =>
    rw [hd] at hmem
    exact absurd hmem (List.not_mem_nil f)
  | cons a l =>
    rfl

/-- Analyzer state reproducing the repository's own deletion test
(scripts/test_deletion_fix.py): one tracked file that no longer exists. -/
def exC1State : CppAnalyzer :=
  { class_index := [], function_index := [], file_index := [],
    usr_index := [], call_graph_analyzer := CallGraphAnalyzer.init,
    file_hashes := [("temp_test_file.cpp", "d41d8cd9")],
    translation_units := [], indexed_file_count := 1,
    include_dependencies := false }

/-- Witness for C1 at a concrete state with one deleted tracked file. -/
theorem C1_witness :
    refresh_if_needed (fun st => Except.ok (st, 0)) [] exC1State =
      Except.error
        "AttributeError: CacheManager object has no attribute remove_file_cache" :=
  C1_refresh_deletion_raises (fun st => Except.ok (st, 0)) [] exC1State
    "temp_test_file.cpp" (by decide) (by decide)

/-- Example record: a function in `a.cpp` with USR `u1` that calls `u2`. -/
def exR1 : SymbolInfo :=
  { name := "f", kind := "function", file := "a.cpp", line := 1, column := 1,
    usr := "u1", calls := ["u2"] }

/-- Analyzer state in which `a.cpp` was previously indexed with `exR1`
and the call edge `u1 → u2`. -/
def exSt2 : CppAnalyzer :=
  { class_index := [],
    function_index := [("f", [exR1])],
    file_index := [("a.cpp", [exR1])],
    usr_index := [("u1", exR1)],
    call_graph_analyzer := ⟨[("u1", ["u2"])], [("u2", ["u1"])]⟩,
    file_hashes := [("a.cpp", "h1")],
    translation_units := ["a.cpp"],
    indexed_file_count := 1,
    include_dependencies := false }

/-- C2 counterexample: reindexing `a.cpp` with an empty record set leaves
the stale USR `u1` in `usr_index` and the stale edge `u1 → u2` in the
CallGraph, so `index_file` does not remove the file's prior records from
all four indexes and the CallGraph before inserting the new set. -/
theorem C2_counterexample :
    lookupM (index_file_cached_merge exSt2 "a.cpp" "h2" []).usr_index "u1" =
        some exR1 ∧
      Edge (index_file_cached_merge exSt2 "a.cpp" "h2" []).call_graph_analyzer.call_graph
        "u1" "u2" ∧
      lookupM (index_file_cached_merge exSt2 "a.cpp" "h2" []).file_index "a.cpp" =
        some [] := by
  refine ⟨?_, ?_, ?_⟩ <;> decide

/-! ### Lemmas for the index_file merge (claim C2, amended) -/

theorem clearStep_usr_index (st : CppAnalyzer) (p : String) (info : SymbolInfo) :
    (clearOldEntriesStep st p info).usr_index = st.usr_index := by
  unfold clearOldEntriesStep
  by_cases h : info.kind = "class" ∨ info.kind = "struct" <;> simp [h]

theorem clearStep_cg (st : CppAnalyzer) (p : String) (info : SymbolInfo) :
    (clearOldEntriesStep st p info).call_graph_analyzer = st.call_graph_analyzer := by
  unfold clearOldEntriesStep
  by_cases h : info.kind = "class" ∨ info.kind = "struct" <;> simp [h]

theorem clearStep_file_index (st : CppAnalyzer) (p : String) (info : SymbolInfo) :
    (clearOldEntriesStep st p info).file_index = st.file_index := by
  unfold clearOldEntriesStep
  by_cases h : info.kind = "class" ∨ info.kind = "struct" <;> simp [h]

theorem clearFold_usr_index (olds : List SymbolInfo) (st : CppAnalyzer) (p : String) :
    (olds.foldl (fun st info => clearOldEntriesStep st p info) st).usr_index =
      st.usr_index := by
  induction olds generalizing st with
  | nil => rfl
  | cons o rest ih =>
    rw [List.foldl_cons, ih, clearStep_usr_index]

theorem clearFold_cg (olds : List SymbolInfo) (st : CppAnalyzer) (p : String) :
    (olds.foldl (fun st info => clearOldEntriesStep st p info) st).call_graph_analyzer =
      st.call_graph_analyzer := by
  induction olds generalizing st with
  | nil => rfl
  | cons o rest ih =>
    rw [List.foldl_cons, ih, clearStep_cg]

theorem clearFold_file_index (olds : List SymbolInfo) (st : CppAnalyzer) (p : String) :
    (olds.foldl (fun st info => clearOldEntriesStep st p info) st).file_index =
      st.file_index := by
  induction olds generalizing st with
  | nil => rfl
  | cons o rest ih =>
    rw [List.foldl_cons, ih, clearStep_file_index]

theorem clearOld_usr_index (st : CppAnalyzer) (p : String) :
    (clearOldEntries st p).usr_index = st.usr_index := by
  unfold clearOldEntries
  cases lookupM st.file_index p with
  | none => rfl
  | some olds => exact clearFold_usr_index olds st p

theorem clearOld_cg (st : CppAnalyzer) (p : String) :
    (clearOldEntries st p).call_graph_analyzer = st.call_graph_analyzer := by
  unfold clearOldEntries
  cases lookupM st.file_index p with
  | none => rfl
  | some olds => exact clearFold_cg olds st p

theorem clearOld_file_index (st : CppAnalyzer) (p : String) :
    (clearOldEntries st p).file_index = st.file_index := by
  unfold clearOldEntries
  cases lookupM st.file_index p with
  | none => rfl
  | some olds => exact clearFold_file_index olds st p

theorem addSym_class_index (st : CppAnalyzer) (s : SymbolInfo) :
    (addCachedSymbol st s).class_index =
      if s.kind = "class" ∨ s.kind = "struct" then appendAtM st.class_index s.name s
      else st.class_index := by
  unfold addCachedSymbol
  by_cases h1 : s.kind = "class" ∨ s.kind = "struct" <;>
    by_cases h2 : s.usr ≠ "" <;>
      by_cases h3 : s.calls ≠ [] <;>
        by_cases h4 : s.called_by ≠ [] <;>
          simp [h1, h2, h3, h4]

theorem addSym_function_index (st : CppAnalyzer) (s : SymbolInfo) :
    (addCachedSymbol st s).function_index =
      if s.kind = "class" ∨ s.kind = "struct" then st.function_index
      else appendAtM st.function_index s.name s := by
  unfold addCachedSymbol
  by_cases h1 : s.kind = "class" ∨ s.kind = "struct" <;>
    by_cases h2 : s.usr ≠ "" <;>
      by_cases h3 : s.calls ≠ [] <;>
        by_cases h4 : s.called_by ≠ [] <;>
          simp [h1, h2, h3, h4]

theorem addSym_usr_index (st : CppAnalyzer) (s : SymbolInfo) :
    (addCachedSymbol st s).usr_index =
      if s.usr ≠ "" then setKeyM st.usr_index s.usr s else st.usr_index := by
  unfold addCachedSymbol
  by_cases h1 : s.kind = "class" ∨ s.kind = "struct" <;>
    by_cases h2 : s.usr ≠ "" <;>
      by_cases h3 : s.calls ≠ [] <;>
        by_cases h4 : s.called_by ≠ [] <;>
          simp [h1, h2, h3, h4]

theorem addSym_file_index (st : CppAnalyzer) (s : SymbolInfo) :
    (addCachedSymbol st s).file_index = st.file_index := by
  unfold addCachedSymbol
  by_cases h1 : s.kind = "class" ∨ s.kind = "struct" <;>
    by_cases h2 : s.usr ≠ "" <;>
      by_cases h3 : s.calls ≠ [] <;>
        by_cases h4 : s.called_by ≠ [] <;>
          simp [h1, h2, h3, h4]

theorem add_call_mono (s : CallGraphAnalyzer) (u v a b : USR)
    (h : Edge s.call_graph a b) : Edge (s.add_call u v).call_graph a b := by
  unfold CallGraphAnalyzer.add_call
  by_cases hc : u ≠ "" ∧ v ≠ ""
  · rw [if_pos hc]
    exact (Edge_addToKey _ _ _ _ _).mpr (Or.inr h)
  · rw [if_neg hc]
    exact h

theorem foldl_add_call_mono (f : CallGraphAnalyzer → String → CallGraphAnalyzer)
    (a b : USR)
    (hf : ∀ cg c, Edge cg.call_graph a b → Edge (f cg c).call_graph a b)
    (l : List String) (cg : CallGraphAnalyzer)
    (h : Edge cg.call_graph a b) : Edge ((l.foldl f cg).call_graph) a b := by
  induction l generalizing cg with
  | nil => exact h
  | cons c rest ih =>
    rw [List.foldl_cons]
    exact ih _ (hf cg c h)

theorem addSym_cg (st : CppAnalyzer) (s : SymbolInfo) :
    (addCachedSymbol st s).call_graph_analyzer =
      (if s.called_by ≠ [] then
        s.called_by.foldl (fun cg caller_usr => cg.add_call caller_usr s.usr)
          (if s.calls ≠ [] then
            s.calls.foldl (fun cg called_usr => cg.add_call s.usr called_usr)
              st.call_graph_analyzer
           else st.call_graph_analyzer)
       else
        (if s.calls ≠ [] then
          s.calls.foldl (fun cg called_usr => cg.add_call s.usr called_usr)
            st.call_graph_analyzer
         else st.call_graph_analyzer)) := by
  unfold addCachedSymbol
  by_cases h1 : s.kind = "class" ∨ s.kind = "struct" <;>
    by_cases h2 : s.usr ≠ "" <;>
      by_cases h3 : s.calls ≠ [] <;>
        by_cases h4 : s.called_by ≠ [] <;>
          simp [h1, h2, h3, h4]

theorem addSym_cg_mono (st : CppAnalyzer) (s : SymbolInfo) (a b : USR)
    (h : Edge st.call_graph_analyzer.call_graph a b) :
    Edge (addCachedSymbol st s).call_graph_analyzer.call_graph a b := by
  rw [addSym_cg]
  have hinner : Edge (if s.calls ≠ [] then
      s.calls.foldl (fun cg called_usr => cg.add_call s.usr called_usr)
        st.call_graph_analyzer
      else st.call_graph_analyzer).call_graph a b := by
    by_cases h3 : s.calls ≠ []
    · rw [if_pos h3]
      exact foldl_add_call_mono _ a b
        (fun cg c hc => add_call_mono cg s.usr c a b hc) _ _ h
    · rw [if_neg h3]
      exact h
  by_cases h4 : s.called_by ≠ []
  · rw [if_pos h4]
    exact foldl_add_call_mono _ a b
      (fun cg c hc => add_call_mono cg c s.usr a b hc) _ _ hinner
  · rw [if_neg h4]
    exact hinner

theorem clearStep_classAt (st : CppAnalyzer) (p : String) (info : SymbolInfo)
    (n : String) :
    (lookupM (clearOldEntriesStep st p info).class_index n).getD [] =
      if (info.kind = "class" ∨ info.kind = "struct") ∧ info.name = n then
        ((lookupM st.class_index n).getD []).filter (fun i => i.file ≠ p)
      else (lookupM st.class_index n).getD [] := by
  unfold clearOldEntriesStep
  by_cases h : info.kind = "class" ∨ info.kind = "struct"
  · rw [if_pos h]
    show (lookupM (setKeyM st.class_index info.name _) n).getD [] = _
    rw [lookupM_setKeyM]
    by_cases hn : info.name = n
    · rw [if_pos hn, if_pos ⟨h, hn⟩, hn]
      rfl
    · rw [if_neg hn, if_neg (fun hc => hn hc.2)]
  · rw [if_neg h]
    rw [if_neg (fun hc => h hc.1)]

theorem clearStep_funcAt (st : CppAnalyzer) (p : String) (info : SymbolInfo)
    (n : String) :
    (lookupM (clearOldEntriesStep st p info).function_index n).getD [] =
      if ¬ (info.kind = "class" ∨ info.kind = "struct") ∧ info.name = n then
        ((lookupM st.function_index n).getD []).filter (fun i => i.file ≠ p)
      else (lookupM st.function_index n).getD [] := by
  unfold clearOldEntriesStep
  by_cases h : info.kind = "class" ∨ info.kind = "struct"
  · rw [if_pos h]
    rw [if_neg (fun hc => hc.1 h)]
  · rw [if_neg h]
    show (lookupM (setKeyM st.function_index info.name _) n).getD [] = _
    rw [lookupM_setKeyM]
    by_cases hn : info.name = n
    · rw [if_pos hn, if_pos ⟨h, hn⟩, hn]
      rfl
    · rw [if_neg hn, if_neg (fun hc => hn hc.2)]

theorem clearFold_classAt_subset (olds : List SymbolInfo) (st : CppAnalyzer)
    (p n : String) (r : SymbolInfo)
    (hr : r ∈ (lookupM
      (olds.foldl (fun st info => clearOldEntriesStep st p info) st).class_index n).getD []) :
    r ∈ (lookupM st.class_index n).getD [] := by
  induction olds generalizing st with
  | nil => exact hr
  | cons o rest ih =>
    rw [List.foldl_cons] at hr
    have h2 := ih _ hr
    rw [clearStep_classAt] at h2
    by_cases hc : (o.kind = "class" ∨ o.kind = "struct") ∧ o.name = n
    · rw [if_pos hc] at h2
      exact List.mem_of_mem_filter h2
    · rw [if_neg hc] at h2
      exact h2

theorem clearFold_funcAt_subset (olds : List SymbolInfo) (st : CppAnalyzer)
    (p n : String) (r : SymbolInfo)
    (hr : r ∈ (lookupM
      (olds.foldl (fun st info => clearOldEntriesStep st p info) st).function_index n).getD []) :
    r ∈ (lookupM st.function_index n).getD [] := by
  induction olds generalizing st with
  | nil => exact hr
  | cons o rest ih =>
    rw [List.foldl_cons] at hr
    have h2 := ih _ hr
    rw [clearStep_funcAt] at h2
    by_cases hc : ¬ (o.kind = "class" ∨ o.kind = "struct") ∧ o.name = n
    · rw [if_pos hc] at h2
      exact List.mem_of_mem_filter h2
    · rw [if_neg hc] at h2
      exact h2

theorem clearFold_classAt_cleared (olds : List SymbolInfo) (st : CppAnalyzer)
    (p n : String)
    (hw : ∃ o ∈ olds, (o.kind = "class" ∨ o.kind = "struct") ∧ o.name = n)
    (r : SymbolInfo)
    (hr : r ∈ (lookupM
      (olds.foldl (fun st info => clearOldEntriesStep st p info) st).class_index n).getD []) :
    ¬ r.file = p := by
  induction olds generalizing st with
  | nil =>
    obtain ⟨o, ho, _⟩ := hw
    exact absurd ho (List.not_mem_nil o)
  | cons o rest ih =>
    rw [List.foldl_cons] at hr
    obtain ⟨w, hwmem, hwprop⟩ := hw
    rcases List.mem_cons.mp hwmem with hwo | hwrest
    · subst hwo
      have h2 := clearFold_classAt_subset rest (clearOldEntriesStep st p w) p n r hr
      rw [clearStep_classAt, if_pos hwprop] at h2
      have := List.mem_filter.mp h2
      simpa using this.2
    · exact ih (clearOldEntriesStep st p o) ⟨w, hwrest, hwprop⟩ hr

theorem clearFold_funcAt_cleared (olds : List SymbolInfo) (st : CppAnalyzer)
    (p n : String)
    (hw : ∃ o ∈ olds, ¬ (o.kind = "class" ∨ o.kind = "struct") ∧ o.name = n)
    (r : SymbolInfo)
    (hr : r ∈ (lookupM
      (olds.foldl (fun st info => clearOldEntriesStep st p info) st).function_index n).getD []) :
    ¬ r.file = p := by
  induction olds generalizing st with
  | nil =>
    obtain ⟨o, ho, _⟩ := hw
    exact absurd ho (List.not_mem_nil o)
  | cons o rest ih =>
    rw [List.foldl_cons] at hr
    obtain ⟨w, hwmem, hwprop⟩ := hw
    rcases List.mem_cons.mp hwmem with hwo | hwrest
    · subst hwo
      have h2 := clearFold_funcAt_subset rest (clearOldEntriesStep st p w) p n r hr
      rw [clearStep_funcAt, if_pos hwprop] at h2
      have := List.mem_filter.mp h2
      simpa using this.2
    · exact ih (clearOldEntriesStep st p o) ⟨w, hwrest, hwprop⟩ hr

theorem insFold_classAt_mem (syms : List SymbolInfo) (st : CppAnalyzer)
    (n : String) (r : SymbolInfo)
    (hr : r ∈ (lookupM (syms.foldl addCachedSymbol st).class_index n).getD []) :
    r ∈ (lookupM st.class_index n).getD [] ∨ r ∈ syms := by
  induction syms generalizing st with
  | nil => exact Or.inl hr
  | cons s rest ih =>
    rw [List.foldl_cons] at hr
    rcases ih _ hr with h2 | h2
    · rw [addSym_class_index] at h2
      by_cases hc : s.kind = "class" ∨ s.kind = "struct"
      · rw [if_pos hc, lookupM_appendAtM] at h2
        by_cases hn : s.name = n
        · rw [if_pos hn] at h2
          simp only [Option.getD_some] at h2
          rcases List.mem_append.mp h2 with h3 | h3
          · exact Or.inl (hn ▸ h3)
          · exact Or.inr (List.mem_cons.mpr (Or.inl (List.mem_singleton.mp h3)))
        · rw [if_neg hn] at h2
          exact Or.inl h2
      · rw [if_neg hc] at h2
        exact Or.inl h2
    · exact Or.inr (List.mem_cons.mpr (Or.inr h2))

theorem insFold_funcAt_mem (syms : List SymbolInfo) (st : CppAnalyzer)
    (n : String) (r : SymbolInfo)
    (hr : r ∈ (lookupM (syms.foldl addCachedSymbol st).function_index n).getD []) :
    r ∈ (lookupM st.function_index n).getD [] ∨ r ∈ syms := by
  induction syms generalizing st with
  | nil => exact Or.inl hr
  | cons s rest ih =>
    rw [List.foldl_cons] at hr
    rcases ih _ hr with h2 | h2
    · rw [addSym_function_index] at h2
      by_cases hc : s.kind = "class" ∨ s.kind = "struct"
      · rw [if_pos hc] at h2
        exact Or.inl h2
      · rw [if_neg hc, lookupM_appendAtM] at h2
        by_cases hn : s.name = n
        · rw [if_pos hn] at h2
          simp only [Option.getD_some] at h2
          rcases List.mem_append.mp h2 with h3 | h3
          · exact Or.inl (hn ▸ h3)
          · exact Or.inr (List.mem_cons.mpr (Or.inl (List.mem_singleton.mp h3)))
        · rw [if_neg hn] at h2
          exact Or.inl h2
    · exact Or.inr (List.mem_cons.mpr (Or.inr h2))

theorem insFold_usr_other (syms : List SymbolInfo) (st : CppAnalyzer) (u : String)
    (hs : ∀ s ∈ syms, s.usr ≠ u) :
    lookupM (syms.foldl addCachedSymbol st).usr_index u = lookupM st.usr_index u := by
  induction syms generalizing st with
  | nil => rfl
  | cons s rest ih =>
    rw [List.foldl_cons]
    rw [ih _ (fun s2 h2 => hs s2 (List.mem_cons.mpr (Or.inr h2)))]
    rw [addSym_usr_index]
    by_cases hu : s.usr ≠ ""
    · rw [if_pos hu, lookupM_setKeyM,
        if_neg (hs s (List.mem_cons.mpr (Or.inl rfl)))]
    · rw [if_neg hu]

theorem insFold_cg_mono (syms : List SymbolInfo) (st : CppAnalyzer) (a b : USR)
    (h : Edge st.call_graph_analyzer.call_graph a b) :
    Edge (syms.foldl addCachedSymbol st).call_graph_analyzer.call_graph a b := by
  induction syms generalizing st with
  | nil => exact h
  | cons s rest ih =>
    rw [List.foldl_cons]
    exact ih _ (addSym_cg_mono st s a b h)

theorem insFold_file_index (syms : List SymbolInfo) (st : CppAnalyzer) :
    (syms.foldl addCachedSymbol st).file_index = st.file_index := by
  induction syms generalizing st with
  | nil => rfl
  | cons s rest ih =>
    rw [List.foldl_cons, ih, addSym_file_index]

theorem clearOld_eq_none (st : CppAnalyzer) (p : String)
    (hfi : lookupM st.file_index p = none) : clearOldEntries st p = st := by
  unfold clearOldEntries
  rw [hfi]

theorem clearOld_eq_some (st : CppAnalyzer) (p : String) (olds : List SymbolInfo)
    (hfi : lookupM st.file_index p = some olds) :
    clearOldEntries st p =
      olds.foldl (fun st info => clearOldEntriesStep st p info) st := by
  unfold clearOldEntries
  rw [hfi]

/-- C2 amended: the reindex merge of `index_file` removes the file's prior
records from the by-name class and function indexes (assuming the live
by-name indexes are consistent with `by_file`, which indexing maintains)
and replaces `by_file[path]` with the new record set, but it does not
remove the file's prior USRs from `by_usr` and does not remove any edge
from the CallGraph: entries under a USR not re-inserted by the new set are
left exactly as they were and every pre-existing call edge survives, so
reparse is not idempotent for `by_usr` or call edges. -/
theorem C2_amended_index_file_merge (st : CppAnalyzer) (path h : String)
    (syms : List SymbolInfo)
    (Hc : ∀ p ∈ st.class_index, ∀ r ∈ p.2, r.file = path →
      (r ∈ (lookupM st.file_index path).getD [] ∧ r.name = p.1 ∧
        (r.kind = "class" ∨ r.kind = "struct")))
    (Hf : ∀ p ∈ st.function_index, ∀ r ∈ p.2, r.file = path →
      (r ∈ (lookupM st.file_index path).getD [] ∧ r.name = p.1 ∧
        ¬ (r.kind = "class" ∨ r.kind = "struct"))) :
    (∀ u, (∀ s ∈ syms, s.usr ≠ u) →
      lookupM (index_file_cached_merge st path h syms).usr_index u =
        lookupM st.usr_index u) ∧
    (∀ a b, Edge st.call_graph_analyzer.call_graph a b →
      Edge (index_file_cached_merge st path h syms).call_graph_analyzer.call_graph a b) ∧
    lookupM (index_file_cached_merge st path h syms).file_index path = some syms ∧
    (∀ n r, r ∈ (lookupM (index_file_cached_merge st path h syms).class_index n).getD [] →
      r.file = path → r ∈ syms) ∧
    (∀ n r,
      r ∈ (lookupM (index_file_cached_merge st path h syms).function_index n).getD [] →
      r.file = path → r ∈ syms) := by
  unfold index_file_cached_merge
  dsimp only
  refine ⟨?_, ?_, ?_, ?_, ?_⟩
  · intro u hu
    rw [insFold_usr_other syms _ u hu]
    show lookupM (clearOldEntries st path).usr_index u = lookupM st.usr_index u
    rw [clearOld_usr_index]
  · intro a b hab
    apply insFold_cg_mono
    show Edge (clearOldEntries st path).call_graph_analyzer.call_graph a b
    rw [clearOld_cg]
    exact hab
  · rw [insFold_file_index]
    show lookupM (setKeyM (clearOldEntries st path).file_index path syms) path =
      some syms
    rw [lookupM_setKeyM, if_pos rfl]
  · intro n r hr hfile
    rcases insFold_classAt_mem syms _ n r hr with h2 | h2
    · exfalso
      have h3 : r ∈ (lookupM (clearOldEntries st path).class_index n).getD [] := h2
      cases hfi : lookupM st.file_index path with
      | none =>
        rw [clearOld_eq_none st path hfi] at h3
        cases hlk : lookupM st.class_index n with
        | none =>
          rw [hlk] at h3
          exact absurd h3 (List.not_mem_nil r)
        | some l =>
          rw [hlk] at h3
          obtain ⟨ho, _, _⟩ := Hc (n, l) (lookupM_mem _ _ _ hlk) r h3 hfile
          rw [hfi] at ho
          exact absurd ho (List.not_mem_nil r)
      | some olds =>
        rw [clearOld_eq_some st path olds hfi] at h3
        have h4 := clearFold_classAt_subset olds st path n r h3
        cases hlk : lookupM st.class_index n with
        | none =>
          rw [hlk] at h4
          exact absurd h4 (List.not_mem_nil r)
        | some l =>
          rw [hlk] at h4
          obtain ⟨ho, hname, hkind⟩ := Hc (n, l) (lookupM_mem _ _ _ hlk) r h4 hfile
          rw [hfi] at ho
          exact clearFold_classAt_cleared olds st path n
            ⟨r, ho, hkind, hname⟩ r h3 hfile
    · exact h2
  · intro n r hr hfile
    rcases insFold_funcAt_mem syms _ n r hr with h2 | h2
    · exfalso
      have h3 : r ∈ (lookupM (clearOldEntries st path).function_index n).getD [] := h2
      cases hfi : lookupM st.file_index path with
      | none =>
        rw [clearOld_eq_none st path hfi] at h3
        cases hlk : lookupM st.function_index n with
        | none =>
          rw [hlk] at h3
          exact absurd h3 (List.not_mem_nil r)
        | some l =>
          rw [hlk] at h3
          obtain ⟨ho, _, _⟩ := Hf (n, l) (lookupM_mem _ _ _ hlk) r h3 hfile
          rw [hfi] at ho
          exact absurd ho (List.not_mem_nil r)
      | some olds =>
        rw [clearOld_eq_some st path olds hfi] at h3
        have h4 := clearFold_funcAt_subset olds st path n r h3
        cases hlk : lookupM st.function_index n with
        | none =>
          rw [hlk] at h4
          exact absurd h4 (List.not_mem_nil r)
        | some l =>
          rw [hlk] at h4
          obtain ⟨ho, hname, hkind⟩ := Hf (n, l) (lookupM_mem _ _ _ hlk) r h4 hfile
          rw [hfi] at ho
          exact clearFold_funcAt_cleared olds st path n
            ⟨r, ho, hkind, hname⟩ r h3 hfile
    · exact h2

/-- Witness for the amended C2 theorem at the concrete state `exSt2`. -/
theorem C2_witness :
    lookupM (index_file_cached_merge exSt2 "a.cpp" "h2" []).usr_index "u1" =
        lookupM exSt2.usr_index "u1" ∧
      Edge (index_file_cached_merge exSt2 "a.cpp" "h2" []).call_graph_analyzer.call_graph
        "u1" "u2" ∧
      lookupM (index_file_cached_merge exSt2 "a.cpp" "h2" []).file_index "a.cpp" =
        some [] := by
  have H := C2_amended_index_file_merge exSt2 "a.cpp" "h2" [] (by decide) (by decide)
  exact ⟨H.1 "u1" (by intro s hs; exact absurd hs (List.not_mem_nil s)),
    H.2.1 "u1" "u2" (by decide), H.2.2.1⟩

/-! ### GlobalCache save and load (claim C4) -/

/-- The persisted GlobalCache artifact written by `CacheManager.save_cache`
(cache_manager.py, lines 41-77).  JSON serialization round-trips every
`SymbolInfo` field through `to_dict` / `SymbolInfo(**d)` (symbol_info.py,
lines 25-42), an identity on records, so the artifact is modeled by the
data itself; the `timestamp` field plays no role in loading and is
omitted. -/
structure CacheData where
  version : String
  include_dependencies : Bool
  class_index : List (String × List SymbolInfo)
  function_index : List (String × List SymbolInfo)
  file_hashes : List (String × String)
  indexed_file_count : Nat
  deriving DecidableEq, Repr

/-- `CppAnalyzer._save_cache` via `CacheManager.save_cache` (cpp_analyzer.py
lines 488-496; cache_manager.py lines 41-77). -/
def save_cache (st : CppAnalyzer) : CacheData :=
  { version := "2.0",
    include_dependencies := st.include_dependencies,
    class_index := st.class_index,
    function_index := st.function_index,
    file_hashes := st.file_hashes,
    indexed_file_count := st.indexed_file_count }

/-- `CacheManager.load_cache` (cache_manager.py, lines 79-106): reject the
artifact on a version or include_dependencies mismatch. -/
def load_cache (include_dependencies : Bool) (cd : CacheData) : Option CacheData :=
  if cd.version ≠ "2.0" then none
  else if cd.include_dependencies ≠ include_dependencies then none
  else some cd

/-- The loaded symbols with non-empty USR, collected in index iteration
order (cpp_analyzer.py, lines 521-533). -/
def collectWithUsr : List (String × List SymbolInfo) → List SymbolInfo
  | [] => []
  | (_, l) :: rest => l.filter (fun s => s.usr ≠ "") ++ collectWithUsr rest

/-- `CppAnalyzer._load_cache` (cpp_analyzer.py, lines 498-544): adopt the
artifact's by-name indexes, hashes and count; rebuild `usr_index` by
`usr_index[symbol.usr] = symbol` over all loaded symbols with a USR, and
rebuild the call graph through `rebuild_from_symbols`.  `file_index` and
`translation_units` are not touched: they keep the pre-load state, which
is empty on a cold start. -/
def load_cache_into (st : CppAnalyzer) (cd : CacheData) : Option CppAnalyzer :=
  match load_cache st.include_dependencies cd with
  | none => none
  | some cache_data =>
      let all_symbols := collectWithUsr cache_data.class_index ++
        collectWithUsr cache_data.function_index
      some { st with
        class_index := cache_data.class_index,
        function_index := cache_data.function_index,
        file_hashes := cache_data.file_hashes,
        indexed_file_count := cache_data.indexed_file_count,
        usr_index := all_symbols.foldl (fun m s => setKeyM m s.usr s) [],
        call_graph_analyzer :=
          st.call_graph_analyzer.rebuild_from_symbols all_symbols }

theorem load_save (st : CppAnalyzer) (inc : Bool) (h : inc = st.include_dependencies) :
    load_cache inc (save_cache st) = some (save_cache st) := by
  unfold load_cache save_cache
  simp [h]

theorem rebuild_indep (s t : CallGraphAnalyzer) (symbols : List SymbolInfo) :
    s.rebuild_from_symbols symbols = t.rebuild_from_symbols symbols := rfl

/-- Example class record for the cache round trip. -/
def exRC : SymbolInfo :=
  { name := "A", kind := "class", file := "a.cpp", line := 1, column := 1,
    usr := "uA" }

/-- Saved analyzer state: one class, with `by_file`, `by_usr` and the
CallGraph consistent with the record set. -/
def exSt4 : CppAnalyzer :=
  { class_index := [("A", [exRC])], function_index := [],
    file_index := [("a.cpp", [exRC])],
    usr_index := [("uA", exRC)],
    call_graph_analyzer := CallGraphAnalyzer.init,
    file_hashes := [("a.cpp", "h1")], translation_units := [],
    indexed_file_count := 1, include_dependencies := false }

/-- Cold-start analyzer into which the cache is loaded. -/
def exFresh4 : CppAnalyzer :=
  { class_index := [], function_index := [], file_index := [], usr_index := [],
    call_graph_analyzer := CallGraphAnalyzer.init, file_hashes := [],
    translation_units := [], indexed_file_count := 0,
    include_dependencies := false }

/-- C4 counterexample: saving `exSt4` and loading it into a cold-start
analyzer with the same include_dependencies setting yields an empty
`by_file` index, not one equal to the saved `by_file`; `_load_cache` never
reconstructs `file_index`. -/
theorem C4_counterexample :
    Option.map (fun s => s.file_index) (load_cache_into exFresh4 (save_cache exSt4)) =
        some [] ∧
      exSt4.file_index ≠ [] := by
  refine ⟨?_, ?_⟩ <;> decide

/-- C4 amended: a save/load round trip with the same include_dependencies
setting reconstructs the by-name class and function indexes, the file-hash
map and the file count exactly; it rebuilds `by_usr` and the CallGraph
from the loaded records' `usr` and `calls` fields, so they equal the saved
ones exactly when the saved state was derivable that way; and it leaves
`by_file` at the loading analyzer's pre-load value (empty on a cold start)
instead of reconstructing it. -/
theorem C4_amended_roundtrip (st st0 : CppAnalyzer)
    (hinc : st0.include_dependencies = st.include_dependencies)
    (husr : st.usr_index =
      (collectWithUsr st.class_index ++ collectWithUsr st.function_index).foldl
        (fun m s => setKeyM m s.usr s) [])
    (hcg : st.call_graph_analyzer =
      CallGraphAnalyzer.init.rebuild_from_symbols
        (collectWithUsr st.class_index ++ collectWithUsr st.function_index)) :
    ∃ st2, load_cache_into st0 (save_cache st) = some st2 ∧
      st2.class_index = st.class_index ∧
      st2.function_index = st.function_index ∧
      st2.file_hashes = st.file_hashes ∧
      st2.indexed_file_count = st.indexed_file_count ∧
      st2.usr_index = st.usr_index ∧
      st2.call_graph_analyzer = st.call_graph_analyzer ∧
      st2.file_index = st0.file_index := by
  unfold load_cache_into
  rw [load_save st st0.include_dependencies hinc]
  refine ⟨_, rfl, rfl, rfl, rfl, rfl, husr.symm, ?_, rfl⟩
  show st0.call_graph_analyzer.rebuild_from_symbols _ = st.call_graph_analyzer
  rw [rebuild_indep st0.call_graph_analyzer CallGraphAnalyzer.init]
  exact hcg.symm

/-- Witness for the amended C4 theorem at concrete states. -/
theorem C4_witness :
    ∃ st2, load_cache_into exFresh4 (save_cache exSt4) = some st2 ∧
      st2.class_index = exSt4.class_index ∧
      st2.function_index = exSt4.function_index ∧
      st2.file_hashes = exSt4.file_hashes ∧
      st2.indexed_file_count = exSt4.indexed_file_count ∧
      st2.usr_index = exSt4.usr_index ∧
      st2.call_graph_analyzer = exSt4.call_graph_analyzer ∧
      st2.file_index = exFresh4.file_index :=
  C4_amended_roundtrip exSt4 exFresh4 (by decide) (by decide) (by decide)

/-! ### FileScanner (file_scanner.py, claim C3) -/

/-- The C++ extensions recognized by the scanner (file_scanner.py, line 13). -/
def CPP_EXTENSIONS : List String :=
  [".cpp", ".cc", ".cxx", ".c++", ".h", ".hpp", ".hxx", ".h++"]

/-- Python `str.endswith` as a suffix test on the character sequence.
(`String.endsWith` from the standard library is extensionally the same
but is defined through byte positions that do not reduce in the kernel.) -/
def strEndsWith (s post : String) : Bool :=
  post.data.isSuffixOf s.data

/-- The file-extension test of the scan loop (file_scanner.py, line 66). -/
def hasCppExt (filename : String) : Bool :=
  CPP_EXTENSIONS.any (fun ext => strEndsWith filename ext)

/-- `FileScanner.should_skip_directory` (file_scanner.py, lines 25-36) on a
path relative to the project root: skip exactly a direct child of the root
whose name is in `EXCLUDE_DIRS`; deeper directories are never skipped. -/
def should_skip_directory (excl : List String) (rel : List String) : Bool :=
  match rel with
  | [d] => decide (d ∈ excl)
  | _ => false

/-- `FileScanner.should_skip_file` (file_scanner.py, lines 38-54).  `none`
models a path outside the project root (the `ValueError` branch); `some`
carries the relative path's parts. -/
def should_skip_file (excl : List String) (include_dependencies : Bool)
    (rel : Option (List String)) : Bool :=
  match rel with
  | none => !include_dependencies
  | some parts =>
      match parts with
      | [] => false
      | p0 :: _ => decide (p0 ∈ excl)

mutual
/-- A project directory tree: plain files and named subdirectories. -/
inductive FSTree where
  | node (files : List String) (dirs : FSForest)
/-- The subdirectories of a directory. -/
inductive FSForest where
  | fnil
  | fcons (name : String) (tree : FSTree) (rest : FSForest)
end

mutual
/-- `FileScanner.find_cpp_files` (file_scanner.py, lines 56-73): the
`os.walk` traversal from the project root.  Each visited directory first
yields its C++ files that pass `should_skip_file` (on the full relative
path) and then walks its unpruned subdirectories.  `DEPENDENCY_DIRS` is
never consulted here (only `is_project_file` reads it, and
`find_cpp_files` does not call it), and every walked path lies under the
root, so the `include_dependencies` branch of `should_skip_file` is never
reached. -/
def walkTree (excl : List String) (incl : Bool) (relpath : List String) :
    FSTree → List (List String)
  | FSTree.node files dirs =>
      (files.filter (fun f =>
        hasCppExt f && !(should_skip_file excl incl (some (relpath ++ [f]))))).map
        (fun f => relpath ++ [f]) ++ walkForest excl incl relpath dirs

/-- The pruned-subdirectory traversal of the walk (file_scanner.py,
line 63): a directory for which `should_skip_directory` holds is not
descended into. -/
def walkForest (excl : List String) (incl : Bool) (relpath : List String) :
    FSForest → List (List String)
  | FSForest.fnil => []
  | FSForest.fcons name t rest =>
      (if should_skip_directory excl (relpath ++ [name]) then []
       else walkTree excl incl (relpath ++ [name]) t) ++
        walkForest excl incl relpath rest
end

/-- `find_cpp_files` with the scanner's full configuration; `dep` is
`DEPENDENCY_DIRS`, which the traversal never reads. -/
def find_cpp_files (excl dep : List String) (include_dependencies : Bool)
    (tree : FSTree) : List (List String) :=
  walkTree excl include_dependencies [] tree

mutual
theorem mem_walkTree_not_skipped (excl : List String) (incl : Bool) :
    (r : List String) → (t : FSTree) → (p : List String) →
    p ∈ walkTree excl incl r t →
    should_skip_file excl incl (some p) = false ∧ p ≠ []
  | r, FSTree.node files dirs, p, hp => by
      unfold walkTree at hp
      rcases List.mem_append.mp hp with h | h
      · obtain ⟨f, hf, hfe⟩ := List.mem_map.mp h
        have hfilter := (List.mem_filter.mp hf).2
        rw [Bool.and_eq_true] at hfilter
        subst hfe
        refine ⟨?_, by simp⟩
        have h2 := hfilter.2
        rw [Bool.not_eq_eq_eq_not] at h2
        simpa using h2
      · exact mem_walkForest_not_skipped excl incl r dirs p h
theorem mem_walkForest_not_skipped (excl : List String) (incl : Bool) :
    (r : List String) → (fo : FSForest) → (p : List String) →
    p ∈ walkForest excl incl r fo →
    should_skip_file excl incl (some p) = false ∧ p ≠ []
  | r, FSForest.fnil, p, hp => absurd hp (List.not_mem_nil p)
  | r, FSForest.fcons name t rest, p, hp => by
      unfold walkForest at hp
      rcases List.mem_append.mp hp with h | h
      · by_cases hd : should_skip_directory excl (r ++ [name]) = true
        · rw [if_pos hd] at h
          exact absurd h (List.not_mem_nil p)
        · rw [if_neg hd] at h
          exact mem_walkTree_not_skipped excl incl (r ++ [name]) t p h
      · exact mem_walkForest_not_skipped excl incl r rest p h
end

mutual
theorem walkTree_config_indep (excl : List String) (i j : Bool) :
    (r : List String) → (t : FSTree) →
    walkTree excl i r t = walkTree excl j r t
  | r, FSTree.node files dirs => by
      unfold walkTree
      rw [walkForest_config_indep excl i j r dirs]
      rfl
theorem walkForest_config_indep (excl : List String) (i j : Bool) :
    (r : List String) → (fo : FSForest) →
    walkForest excl i r fo = walkForest excl j r fo
  | r, FSForest.fnil => rfl
  | r, FSForest.fcons name t rest => by
      unfold walkForest
      rw [walkTree_config_indep excl i j (r ++ [name]) t,
        walkForest_config_indep excl i j r rest]
end

/-- Example tree `sub/vendor/a.cpp` for the C3 counterexample. -/
def exTree3 : FSTree :=
  FSTree.node []
    (FSForest.fcons "sub"
      (FSTree.node []
        (FSForest.fcons "vendor" (FSTree.node ["a.cpp"] FSForest.fnil)
          FSForest.fnil))
      FSForest.fnil)

/-- C3 counterexample: with `dependency_dirs = ["vendor"]` and
`include_dependencies = false`, the file `sub/vendor/a.cpp`, whose path
contains the dependency segment `vendor`, still appears in the scanner
output: `find_cpp_files` never consults `dependency_dirs`. -/
theorem C3_counterexample :
    find_cpp_files [] ["vendor"] false exTree3 = [["sub", "vendor", "a.cpp"]] ∧
      "vendor" ∈ ["sub", "vendor", "a.cpp"] ∧ ("vendor" : String) ∈ ["vendor"] := by
  refine ⟨?_, ?_, ?_⟩ <;> decide

/-- C3 amended: no file whose first path segment is an `exclude_dirs`
entry appears in the scanner output (in particular no file under a
first-level excluded directory), and the scanner never consults
`dependency_dirs` or `include_dependencies`: its output is identical for
every value of those two settings, so dependency files inside the project
root are emitted even when `include_dependencies` is false. -/
theorem C3_amended_scanner (excl dep dep2 : List String) (incl incl2 : Bool)
    (tree : FSTree) :
    (∀ p ∈ find_cpp_files excl dep incl tree, ∀ d ∈ excl, p.head? ≠ some d) ∧
      find_cpp_files excl dep incl tree = find_cpp_files excl dep2 incl2 tree := by
  constructor
  · intro p hp d hd hhead
    obtain ⟨hskip, hne⟩ := mem_walkTree_not_skipped excl incl [] tree p hp
    cases p with
    | nil => exact hne rfl
    | cons p0 prest =>
      have hp0 : p0 = d := by
        injection hhead
      subst hp0
      unfold should_skip_file at hskip
      simp only [decide_eq_false_iff_not] at hskip
      exact hskip hd
  · exact walkTree_config_indep excl incl incl2 [] tree

/-- Example tree with a first-level excluded directory for the C3 witness. -/
def exTree3b : FSTree :=
  FSTree.node []
    (FSForest.fcons "build" (FSTree.node ["x.cpp"] FSForest.fnil)
      (FSForest.fcons "src" (FSTree.node ["y.cpp"] FSForest.fnil) FSForest.fnil))

/-- Witness for the amended C3 theorem at concrete inputs. -/
theorem C3_witness :
    ¬ (["src", "y.cpp"].head? = some "build") ∧
      find_cpp_files ["build"] [] true exTree3b =
        find_cpp_files ["build"] ["vendor"] false exTree3b :=
  ⟨(C3_amended_scanner ["build"] [] [] true true exTree3b).1 ["src", "y.cpp"]
      (by decide) "build" (by decide),
    (C3_amended_scanner ["build"] [] ["vendor"] true false exTree3b).2⟩

/-! ### SearchEngine and regex handling (claim C8) -/

/-- The host regex engine (Python `re`), abstracted at the library
boundary: `compile` returns the case-insensitive search predicate of a
pattern, or `none` when the pattern is invalid (`re.error`).  Python
guarantees that the empty pattern compiles and `re.search` with it
matches every string; the theorem takes that as a hypothesis on the
engine. -/
structure RegexEngine where
  compile : String → Option (String → Bool)

/-- Result dict built by `SearchEngine.search_classes` (search_engine.py,
lines 30-37). -/
structure ClassResult where
  name : String
  kind : String
  file : String
  line : Nat
  is_project : Bool
  base_classes : List String
  deriving DecidableEq, Repr

/-- Result dict built by `SearchEngine.search_functions` (search_engine.py,
lines 55-63). -/
structure FuncResult where
  name : String
  kind : String
  file : String
  line : Nat
  signature : String
  is_project : Bool
  parent_class : String
  deriving DecidableEq, Repr

/-- Shape a record as a class search result. -/
def classResultOf (info : SymbolInfo) : ClassResult :=
  ⟨info.name, info.kind, info.file, info.line, info.is_project, info.base_classes⟩

/-- Shape a record as a function search result. -/
def funcResultOf (info : SymbolInfo) : FuncResult :=
  ⟨info.name, info.kind, info.file, info.line, info.signature, info.is_project,
    info.parent_class⟩

/-- The class-name filter of `search_functions` (search_engine.py, lines
52-53): `if class_name and info.parent_class != class_name: continue`
skips a record when `class_name` is truthy (non-None and non-empty) and
differs from the record's parent class. -/
def classNameKeeps (class_name : Option String) (info : SymbolInfo) : Bool :=
  match class_name with
  | none => true
  | some cn => if cn ≠ "" ∧ info.parent_class ≠ cn then false else true

/-- The key scan of `SearchEngine.search_classes` (search_engine.py, lines
26-37), with the compiled regex passed as a predicate on names. -/
def searchClassesWith : List (String × List SymbolInfo) → (String → Bool) →
    Bool → List ClassResult
  | [], _, _ => []
  | (name, infos) :: rest, mtch, project_only =>
      (if mtch name then
        (infos.filter (fun info => !project_only || info.is_project)).map
          classResultOf
       else []) ++ searchClassesWith rest mtch project_only

/-- The key scan of `SearchEngine.search_functions` (search_engine.py,
lines 47-63). -/
def searchFunctionsWith : List (String × List SymbolInfo) → (String → Bool) →
    Bool → Option String → List FuncResult
  | [], _, _, _ => []
  | (name, infos) :: rest, mtch, project_only, class_name =>
      (if mtch name then
        (infos.filter (fun info =>
          (!project_only || info.is_project) && classNameKeeps class_name info)).map
          funcResultOf
       else []) ++ searchFunctionsWith rest mtch project_only class_name

/-- `SearchEngine.search_classes` (search_engine.py, lines 21-39):
`re.compile` raises `re.error` on an invalid pattern, modeled as
`Except.error`. -/
def se_search_classes (eng : RegexEngine) (st : CppAnalyzer) (pattern : String)
    (project_only : Bool) : Except String (List ClassResult) :=
  match eng.compile pattern with
  | none => Except.error "re.error: invalid pattern"
  | some mtch => Except.ok (searchClassesWith st.class_index mtch project_only)

/-- `SearchEngine.search_functions` (search_engine.py, lines 41-65). -/
def se_search_functions (eng : RegexEngine) (st : CppAnalyzer) (pattern : String)
    (project_only : Bool) (class_name : Option String) :
    Except String (List FuncResult) :=
  match eng.compile pattern with
  | none => Except.error "re.error: invalid pattern"
  | some mtch =>
      Except.ok (searchFunctionsWith st.function_index mtch project_only class_name)

/-- The pair of result lists of `search_symbols`. -/
structure SymbolsResult where
  classes : List ClassResult
  functions : List FuncResult
  deriving DecidableEq, Repr

/-- Python truthiness of `not symbol_types`: true for `None` and for the
empty list (search_engine.py, lines 72-74). -/
def notSymbolTypes (symbol_types : Option (List String)) : Bool :=
  match symbol_types with
  | none => true
  | some l => l.isEmpty

/-- The `search_classes` guard of `search_symbols` (search_engine.py,
line 73). -/
def searchClassFlag (symbol_types : Option (List String)) : Bool :=
  notSymbolTypes symbol_types ||
    (symbol_types.getD []).any (fun t => t = "class" || t = "struct")

/-- The `search_functions` guard of `search_symbols` (search_engine.py,
line 74). -/
def searchFunctionFlag (symbol_types : Option (List String)) : Bool :=
  notSymbolTypes symbol_types ||
    (symbol_types.getD []).any (fun t => t = "function" || t = "method")

/-- `SearchEngine.search_symbols` (search_engine.py, lines 67-82): an
`re.error` raised by either inner search propagates. -/
def se_search_symbols (eng : RegexEngine) (st : CppAnalyzer) (pattern : String)
    (project_only : Bool) (symbol_types : Option (List String)) :
    Except String SymbolsResult :=
  match (if searchClassFlag symbol_types then
          se_search_classes eng st pattern project_only
         else Except.ok []) with
  | Except.error e => Except.error e
  | Except.ok cls =>
      match (if searchFunctionFlag symbol_types then
              se_search_functions eng st pattern project_only none
             else Except.ok []) with
      | Except.error e => Except.error e
      | Except.ok fns => Except.ok ⟨cls, fns⟩

/-- `CppAnalyzer.search_classes` (cpp_analyzer.py, lines 560-566): the
`except re.error` handler surfaces an empty list with a diagnostic. -/
def CppAnalyzer.search_classes (eng : RegexEngine) (st : CppAnalyzer)
    (pattern : String) (project_only : Bool) : List ClassResult :=
  match se_search_classes eng st pattern project_only with
  | Except.error _ => []
  | Except.ok r => r

/-- `CppAnalyzer.search_functions` (cpp_analyzer.py, lines 568-574). -/
def CppAnalyzer.search_functions (eng : RegexEngine) (st : CppAnalyzer)
    (pattern : String) (project_only : Bool) (class_name : Option String) :
    List FuncResult :=
  match se_search_functions eng st pattern project_only class_name with
  | Except.error _ => []
  | Except.ok r => r

/-- `CppAnalyzer.search_symbols` (cpp_analyzer.py, lines 683-700): the
handler returns the dict with empty class and function lists. -/
def CppAnalyzer.search_symbols (eng : RegexEngine) (st : CppAnalyzer)
    (pattern : String) (project_only : Bool)
    (symbol_types : Option (List String)) : SymbolsResult :=
  match se_search_symbols eng st pattern project_only symbol_types with
  | Except.error _ => ⟨[], []⟩
  | Except.ok r => r

/-- All class records of the index, shaped as results, in index order. -/
def allClassResults : List (String × List SymbolInfo) → List ClassResult
  | [] => []
  | (_, infos) :: rest => infos.map classResultOf ++ allClassResults rest

/-- All function records of the index, shaped as results, in index order. -/
def allFuncResults : List (String × List SymbolInfo) → List FuncResult
  | [] => []
  | (_, infos) :: rest => infos.map funcResultOf ++ allFuncResults rest

theorem searchClassesWith_all (idx : List (String × List SymbolInfo))
    (m : String → Bool) (hm : ∀ s, m s = true) :
    searchClassesWith idx m false = allClassResults idx := by
  induction idx with
  | nil => rfl
  | cons p rest ih =>
    obtain ⟨name, infos⟩ := p
    simp only [searchClassesWith, allClassResults]
    rw [if_pos (hm name), ih]
    congr 1
    congr 1
    simp [List.filter_eq_self]

theorem searchFunctionsWith_all (idx : List (String × List SymbolInfo))
    (m : String → Bool) (hm : ∀ s, m s = true) :
    searchFunctionsWith idx m false none = allFuncResults idx := by
  induction idx with
  | nil => rfl
  | cons p rest ih =>
    obtain ⟨name, infos⟩ := p
    simp only [searchFunctionsWith, allFuncResults]
    rw [if_pos (hm name), ih]
    congr 1
    congr 1
    simp [List.filter_eq_self, classNameKeeps]

/-- C8: an invalid regex pattern makes search_classes, search_functions
and search_symbols return the empty result with a diagnostic rather than
raising (the `except re.error` handlers in cpp_analyzer.py lines 560-574
and 683-700); the searches are read-only functions of the index state in
this embedding, so the state is unchanged by construction; and when the
engine compiles the empty pattern to a matcher satisfied by every string
(as Python `re.search` is), every indexed name matches and all records
are returned with project filtering off. -/
theorem C8_invalid_regex_empty_pattern (eng : RegexEngine) (st : CppAnalyzer)
    (pattern : String) (project_only : Bool) (class_name : Option String)
    (symbol_types : Option (List String)) :
    (eng.compile pattern = none →
      CppAnalyzer.search_classes eng st pattern project_only = [] ∧
      CppAnalyzer.search_functions eng st pattern project_only class_name = [] ∧
      CppAnalyzer.search_symbols eng st pattern project_only symbol_types =
        ⟨[], []⟩) ∧
    (∀ m, eng.compile "" = some m → (∀ s2, m s2 = true) →
      CppAnalyzer.search_classes eng st "" false = allClassResults st.class_index ∧
      CppAnalyzer.search_functions eng st "" false none =
        allFuncResults st.function_index) := by
  constructor
  · intro hbad
    refine ⟨?_, ?_, ?_⟩
    · unfold CppAnalyzer.search_classes se_search_classes
      rw [hbad]
    · unfold CppAnalyzer.search_functions se_search_functions
      rw [hbad]
    · unfold CppAnalyzer.search_symbols se_search_symbols
      cases hc : searchClassFlag symbol_types <;>
        cases hf : searchFunctionFlag symbol_types <;>
          simp [se_search_classes, se_search_functions, hbad]
  · intro m hcomp hall
    constructor
    · unfold CppAnalyzer.search_classes se_search_classes
      rw [hcomp]
      exact searchClassesWith_all st.class_index m hall
    · unfold CppAnalyzer.search_functions se_search_functions
      rw [hcomp]
      exact searchFunctionsWith_all st.function_index m hall

/-- A toy regex engine for the witness: the pattern `(` is invalid, every
other pattern matches everything. -/
def toyEngine : RegexEngine :=
  ⟨fun p => if p = "(" then none else some (fun _ => true)⟩

/-- Tiny index state for the C8 witness. -/
def exSt8 : CppAnalyzer :=
  { class_index := [("A", [exRC])], function_index := [("f", [exR1])],
    file_index := [("a.cpp", [exRC, exR1])],
    usr_index := [("uA", exRC), ("u1", exR1)],
    call_graph_analyzer := CallGraphAnalyzer.init,
    file_hashes := [("a.cpp", "h1")], translation_units := [],
    indexed_file_count := 1, include_dependencies := false }

/-- Witness for C8 at the toy engine and a concrete index. -/
theorem C8_witness :
    (CppAnalyzer.search_classes toyEngine exSt8 "(" true = [] ∧
      CppAnalyzer.search_functions toyEngine exSt8 "(" true none = [] ∧
      CppAnalyzer.search_symbols toyEngine exSt8 "(" true none = ⟨[], []⟩) ∧
    (CppAnalyzer.search_classes toyEngine exSt8 "" false =
        allClassResults exSt8.class_index ∧
      CppAnalyzer.search_functions toyEngine exSt8 "" false none =
        allFuncResults exSt8.function_index) :=
  ⟨(C8_invalid_regex_empty_pattern toyEngine exSt8 "(" true none none).1 rfl,
    (C8_invalid_regex_empty_pattern toyEngine exSt8 "" true none none).2
      (fun _ => true) rfl (fun s2 => rfl)⟩

/-! ### get_call_path (claims C6 and C7) -/

/-- Python `str.lower` on the character sequence (`String.toLower` from
the standard library does not reduce in the kernel). -/
def strToLower (s : String) : String :=
  String.mk (s.data.map Char.toLower)

/-- The compiled form of the pattern built at cpp_analyzer.py lines
901-902: `"^" + re.escape(x) + "$"` with `re.IGNORECASE`.  An anchored,
escaped pattern searched case-insensitively matches a name exactly when
the name equals `x` up to case. -/
def exactCI (x : String) : String → Bool :=
  fun name => strToLower name = strToLower x

/-- The USR collection of `get_call_path` (cpp_analyzer.py, lines
907-918): for each search hit, scan the function-index records under the
hit's name and collect the USRs of those whose file and line match the
hit.  Python collects into a `set`; the model keeps first-insertion
order, one legitimate iteration order of that set. -/
def usrsForName (function_index : List (String × List SymbolInfo))
    (funcs : List FuncResult) : List USR :=
  funcs.foldl (fun acc func =>
    ((lookupM function_index func.name).getD []).foldl (fun acc symbol =>
      if symbol.usr ≠ "" ∧ symbol.file = func.file ∧ symbol.line = func.line then
        (if symbol.usr ∈ acc then acc else acc ++ [symbol.usr])
      else acc) acc) []

/-- The per-entry expansion of the BFS level (cpp_analyzer.py, lines
942-946): push every unvisited callee with the extended path; the visited
set is shared across the whole level. -/
def bfsExpand (path : List USR) (callees : List USR)
    (acc : List (USR × List USR) × List USR) :
    List (USR × List USR) × List USR :=
  callees.foldl (fun acc callee_usr =>
    if callee_usr ∈ acc.2 then acc
    else (acc.1 ++ [(callee_usr, path ++ [callee_usr])], acc.2 ++ [callee_usr]))
    acc

/-- One BFS level (cpp_analyzer.py, lines 929-947): a queue entry at a
target USR emits its path and is not expanded; any other entry pushes its
unvisited callees onto the next queue.  Paths are emitted as USR paths;
the source converts each to a name path at emission time (lines 933-939),
a pure conversion that composes to mapping `namePathOf` over the final
list, done in `get_call_path` below. -/
def bfsLevel (cg : CallGraphAnalyzer) (to_usrs : List USR) :
    List (USR × List USR) → List (USR × List USR) → List USR →
    List (List USR) → List (USR × List USR) × List USR × List (List USR)
  | [], nq, visited, paths => (nq, visited, paths)
  | (current_usr, path) :: qrest, nq, visited, paths =>
      if current_usr ∈ to_usrs then
        bfsLevel cg to_usrs qrest nq visited (paths ++ [path])
      else
        bfsLevel cg to_usrs qrest
          (bfsExpand path (cg.find_callees current_usr) (nq, visited)).1
          (bfsExpand path (cg.find_callees current_usr) (nq, visited)).2
          paths

/-- The BFS driver loop (cpp_analyzer.py, lines 923-949): run while the
queue is non-empty and `depth < max_depth`; the fuel argument is the
number of levels still allowed, `max_depth - depth`. -/
def bfsRun (cg : CallGraphAnalyzer) (to_usrs : List USR) :
    Nat → List (USR × List USR) → List USR → List (List USR) → List (List USR)
  | 0, _, _, paths => paths
  | fuel + 1, queue, visited, paths =>
      if queue = [] then paths
      else
        bfsRun cg to_usrs fuel
          (bfsLevel cg to_usrs queue [] visited paths).1
          (bfsLevel cg to_usrs queue [] visited paths).2.1
          (bfsLevel cg to_usrs queue [] visited paths).2.2

/-- Display form of a record in a name path (cpp_analyzer.py, line 938). -/
def displayName (info : SymbolInfo) : String :=
  if info.parent_class ≠ "" then info.parent_class ++ "::" ++ info.name
  else info.name

/-- Name-path conversion (cpp_analyzer.py, lines 934-938): USRs missing
from `usr_index` are dropped. -/
def namePathOf (usr_index : List (String × SymbolInfo)) : List USR → List String
  | [] => []
  | usr :: rest =>
      match lookupM usr_index usr with
      | some info => displayName info :: namePathOf usr_index rest
      | none => namePathOf usr_index rest

/-- `CppAnalyzer.get_call_path` (cpp_analyzer.py, lines 898-951). -/
def CppAnalyzer.get_call_path (st : CppAnalyzer)
    (from_function to_function : String) (max_depth : Nat) : List (List String) :=
  let from_funcs :=
    searchFunctionsWith st.function_index (exactCI from_function) false none
  let to_funcs :=
    searchFunctionsWith st.function_index (exactCI to_function) false none
  if from_funcs = [] ∨ to_funcs = [] then []
  else
    let from_usrs := usrsForName st.function_index from_funcs
    let to_usrs := usrsForName st.function_index to_funcs
    (from_usrs.foldl (fun paths from_usr =>
      bfsRun st.call_graph_analyzer to_usrs max_depth
        [(from_usr, [from_usr])] [from_usr] paths) []).map
      (namePathOf st.usr_index)

/-- Example record: a function `f` with USR `uf`. -/
def exRF : SymbolInfo :=
  { name := "f", kind := "function", file := "b.cpp", line := 3, column := 1,
    usr := "uf" }

/-- Analyzer state with `f` indexed, for claim C7. -/
def exStF : CppAnalyzer :=
  { class_index := [], function_index := [("f", [exRF])],
    file_index := [("b.cpp", [exRF])], usr_index := [("uf", exRF)],
    call_graph_analyzer := CallGraphAnalyzer.init,
    file_hashes := [("b.cpp", "h")], translation_units := [],
    indexed_file_count := 1, include_dependencies := false }

/-- C7 counterexample: `f` is present in the index, yet
`get_call_path(f, f, 0)` returns the empty list, not a single one-node
path: with `max_depth = 0` the BFS while-loop body never runs, so even
the trivial path is never emitted. -/
theorem C7_counterexample :
    CppAnalyzer.get_call_path exStF "f" "f" 0 = [] ∧
      (lookupM exStF.function_index "f").isSome = true := by
  refine ⟨?_, ?_⟩ <;> decide

theorem bfsRun_zero (cg : CallGraphAnalyzer) (t : List USR)
    (q : List (USR × List USR)) (v : List USR) (paths : List (List USR)) :
    bfsRun cg t 0 q v paths = paths := rfl

theorem bfsRun_nil_queue (cg : CallGraphAnalyzer) (t : List USR) (fuel : Nat)
    (v : List USR) (paths : List (List USR)) :
    bfsRun cg t fuel [] v paths = paths := by
  cases fuel with
  | zero => rfl
  | succ f =>
    unfold bfsRun
    rw [if_pos rfl]

theorem fold_bfsRun_zero (cg : CallGraphAnalyzer) (t : List USR)
    (us : List USR) (paths : List (List USR)) :
    us.foldl (fun paths u => bfsRun cg t 0 [(u, [u])] [u] paths) paths = paths := by
  induction us generalizing paths with
  | nil => rfl
  | cons u rest ih =>
    rw [List.foldl_cons]
    exact ih paths

/-- C7 amended: with `max_depth = 0` the BFS loop never runs, so
`get_call_path` returns the empty list for every pair of endpoints — the
coinciding-endpoint case included, contrary to the claim at `k = 0`.  For
`k ≥ 1` and a function name that resolves to exactly one USR present in
`usr_index`, `get_call_path(f, f, k)` returns the single one-node path. -/
theorem C7_amended_trivial_path (st : CppAnalyzer) (f : String)
    (u : USR) (info : SymbolInfo) (k : Nat)
    (hff : searchFunctionsWith st.function_index (exactCI f) false none ≠ [])
    (hus : usrsForName st.function_index
      (searchFunctionsWith st.function_index (exactCI f) false none) = [u])
    (hinfo : lookupM st.usr_index u = some info)
    (hk : 1 ≤ k) :
    (∀ a b, CppAnalyzer.get_call_path st a b 0 = []) ∧
      CppAnalyzer.get_call_path st f f k = [[displayName info]] := by
  constructor
  · intro a b
    unfold CppAnalyzer.get_call_path
    dsimp only
    by_cases hempty :
        searchFunctionsWith st.function_index (exactCI a) false none = [] ∨
          searchFunctionsWith st.function_index (exactCI b) false none = []
    · rw [if_pos hempty]
    · rw [if_neg hempty, fold_bfsRun_zero]
      rfl
  · unfold CppAnalyzer.get_call_path
    dsimp only
    rw [if_neg (by intro hor; rcases hor with h | h <;> exact hff h)]
    rw [hus]
    obtain ⟨fuel, hfuel⟩ : ∃ fuel, k = fuel + 1 := by
      cases k with
      | zero => exact absurd hk (by simp)
      | succ n => exact ⟨n, rfl⟩
    subst hfuel
    rw [List.foldl_cons, List.foldl_nil]
    unfold bfsRun
    rw [if_neg (by simp)]
    unfold bfsLevel
    rw [if_pos (List.mem_singleton.mpr rfl)]
    unfold bfsLevel
    rw [bfsRun_nil_queue]
    show [namePathOf st.usr_index [u]] = [[displayName info]]
    rw [show namePathOf st.usr_index [u] = [displayName info] from by
      unfold namePathOf
      rw [hinfo]
      rfl]

/-- Witness for the amended C7 theorem at the concrete index `exStF`. -/
theorem C7_witness :
    CppAnalyzer.get_call_path exStF "x" "y" 0 = [] ∧
      CppAnalyzer.get_call_path exStF "f" "f" 1 = [[displayName exRF]] :=
  ⟨(C7_amended_trivial_path exStF "f" "uf" exRF 1 (by decide) (by decide)
      (by decide) (by decide)).1 "x" "y",
    (C7_amended_trivial_path exStF "f" "uf" exRF 1 (by decide) (by decide)
      (by decide) (by decide)).2⟩

/-- Chain of functions `a → b → t` for the C6 counterexample. -/
def exRA : SymbolInfo :=
  { name := "a", kind := "function", file := "c.cpp", line := 1, column := 1,
    usr := "ua", calls := ["ub"] }

/-- Middle node of the chain. -/
def exRB : SymbolInfo :=
  { name := "b", kind := "function", file := "c.cpp", line := 2, column := 1,
    usr := "ub", calls := ["ut"] }

/-- Target node of the chain. -/
def exRT : SymbolInfo :=
  { name := "t", kind := "function", file := "c.cpp", line := 3, column := 1,
    usr := "ut" }

/-- Analyzer state with the call chain `ua → ub → ut`. -/
def exStC : CppAnalyzer :=
  { class_index := [],
    function_index := [("a", [exRA]), ("b", [exRB]), ("t", [exRT])],
    file_index := [("c.cpp", [exRA, exRB, exRT])],
    usr_index := [("ua", exRA), ("ub", exRB), ("ut", exRT)],
    call_graph_analyzer :=
      ⟨[("ua", ["ub"]), ("ub", ["ut"])], [("ub", ["ua"]), ("ut", ["ub"])]⟩,
    file_hashes := [("c.cpp", "h")], translation_units := [],
    indexed_file_count := 1, include_dependencies := false }

/-- The set of paths the claim describes: a simple sequence
`u₀ = from, …, u_k = to` with every consecutive pair a callee edge, no
repeated USR, and at most `max_depth` edges. -/
def IsSimpleCallPath (cg : CallGraphAnalyzer) (from_usr to_usr : USR)
    (max_depth : Nat) (p : List USR) : Prop :=
  p.head? = some from_usr ∧ p.getLast? = some to_usr ∧ p.Nodup ∧
    p.length ≤ max_depth + 1 ∧
    List.Chain' (fun x y => y ∈ cg.find_callees x) p

/-- C6 counterexample: on the chain `ua → ub → ut`, the sequence
`[ua, ub, ut]` is a simple callee-path of 2 ≤ max_depth edges, yet
`get_call_path("a", "t", 2)` returns the empty list (a path of k edges is
only found when `max_depth ≥ k + 1`), so the operation does not return
exactly the claimed set of sequences. -/
theorem C6_counterexample :
    CppAnalyzer.get_call_path exStC "a" "t" 2 = [] ∧
      IsSimpleCallPath exStC.call_graph_analyzer "ua" "ut" 2 ["ua", "ub", "ut"] := by
  constructor
  · decide
  · refine ⟨rfl, rfl, by decide, by decide, ?_⟩
    rw [List.chain'_cons, List.chain'_cons]
    exact ⟨by decide, by decide, List.chain'_singleton _⟩

/-- Invariant of one BFS queue entry: its path is a nonempty simple
callee-chain from the source `u0`, ending at the entry's USR, of the
current level's length `L`, with every node already visited. -/
def EntryOK (cg : CallGraphAnalyzer) (u0 : USR) (L : Nat) (visited : List USR)
    (e : USR × List USR) : Prop :=
  e.2.head? = some u0 ∧ e.2.getLast? = some e.1 ∧ e.2.Nodup ∧ e.2.length = L ∧
    List.Chain' (fun x y => y ∈ cg.find_callees x) e.2 ∧ ∀ x ∈ e.2, x ∈ visited

/-- Soundness shape of a path found by the BFS from source `u0`: a simple
callee-chain from `u0` to some target USR of at most `n` nodes. -/
def PathOK (cg : CallGraphAnalyzer) (u0 : USR) (to_usrs : List USR) (n : Nat)
    (p : List USR) : Prop :=
  p.head? = some u0 ∧ (∃ t ∈ to_usrs, p.getLast? = some t) ∧ p.Nodup ∧
    p.length ≤ n ∧ List.Chain' (fun x y => y ∈ cg.find_callees x) p

theorem EntryOK_mono (cg : CallGraphAnalyzer) (u0 : USR) (L : Nat)
    (v1 v2 : List USR) (e : USR × List USR)
    (hsub : ∀ x ∈ v1, x ∈ v2) (h : EntryOK cg u0 L v1 e) :
    EntryOK cg u0 L v2 e :=
  ⟨h.1, h.2.1, h.2.2.1, h.2.2.2.1, h.2.2.2.2.1,
    fun x hx => hsub x (h.2.2.2.2.2 x hx)⟩

theorem bfsExpand_ok (cg : CallGraphAnalyzer) (u0 cur : USR) (L : Nat)
    (path : List USR)
    (hhead : path.head? = some u0) (hlast : path.getLast? = some cur)
    (hnd : path.Nodup) (hlen : path.length = L)
    (hch : List.Chain' (fun x y => y ∈ cg.find_callees x) path) :
    ∀ (callees : List USR) (nq : List (USR × List USR)) (visited : List USR),
    (∀ x ∈ path, x ∈ visited) →
    (∀ c ∈ callees, c ∈ cg.find_callees cur) →
    (∀ e ∈ nq, EntryOK cg u0 (L + 1) visited e) →
    (∀ e ∈ (bfsExpand path callees (nq, visited)).1,
      EntryOK cg u0 (L + 1) (bfsExpand path callees (nq, visited)).2 e) ∧
    (∀ x ∈ visited, x ∈ (bfsExpand path callees (nq, visited)).2)
  | [], nq, visited, _hvis, _hcal, hnq => ⟨hnq, fun x hx => hx⟩
  | c :: rest, nq, visited, hvis, hcal, hnq => by
      rw [show bfsExpand path (c :: rest) (nq, visited) =
        bfsExpand path rest
          (if c ∈ visited then (nq, visited)
           else (nq ++ [(c, path ++ [c])], visited ++ [c])) from rfl]
      by_cases hc : c ∈ visited
      · rw [if_pos hc]
        exact bfsExpand_ok cg u0 cur L path hhead hlast hnd hlen hch rest nq visited
          hvis (fun c2 h2 => hcal c2 (List.mem_cons.mpr (Or.inr h2))) hnq
      · rw [if_neg hc]
        have hR : c ∈ cg.find_callees cur := hcal c (List.mem_cons.mpr (Or.inl rfl))
        have hvis2 : ∀ x ∈ path, x ∈ visited ++ [c] := fun x hx =>
          List.mem_append.mpr (Or.inl (hvis x hx))
        have hnewentry : EntryOK cg u0 (L + 1) (visited ++ [c]) (c, path ++ [c]) := by
          refine ⟨?_, ?_, ?_, ?_, ?_, ?_⟩
          · cases path with
            | nil => exact absurd hhead (by simp)
            | cons x xs => simpa using hhead
          · simp [List.getLast?_concat]
          · rw [List.nodup_append]
            refine ⟨hnd, List.nodup_singleton c, ?_⟩
            intro x hx hxc
            rw [List.mem_singleton] at hxc
            subst hxc
            exact hc (hvis x hx)
          · simp [hlen]
          · rw [List.chain'_append]
            refine ⟨hch, List.chain'_singleton c, ?_⟩
            intro x hx y hy
            rw [hlast] at hx
            simp only [Option.mem_def, Option.some_inj] at hx
            simp only [List.head?_cons, Option.mem_def, Option.some_inj] at hy
            subst hx
            subst hy
            exact hR
          · intro x hx
            rcases List.mem_append.mp hx with hx | hx
            · exact List.mem_append.mpr (Or.inl (hvis x hx))
            · exact List.mem_append.mpr (Or.inr hx)
        have hnq2 : ∀ e ∈ nq ++ [(c, path ++ [c])],
            EntryOK cg u0 (L + 1) (visited ++ [c]) e := by
          intro e he
          rcases List.mem_append.mp he with he | he
          · exact EntryOK_mono cg u0 (L + 1) visited (visited ++ [c]) e
              (fun x hx => List.mem_append.mpr (Or.inl hx)) (hnq e he)
          · rw [List.mem_singleton] at he
            subst he
            exact hnewentry
        have H := bfsExpand_ok cg u0 cur L path hhead hlast hnd hlen hch rest
          (nq ++ [(c, path ++ [c])]) (visited ++ [c]) hvis2
          (fun c2 h2 => hcal c2 (List.mem_cons.mpr (Or.inr h2))) hnq2
        exact ⟨H.1, fun x hx => H.2 x (List.mem_append.mpr (Or.inl hx))⟩

theorem bfsLevel_ok (cg : CallGraphAnalyzer) (u0 : USR) (to_usrs : List USR)
    (L : Nat) :
    ∀ (queue nq : List (USR × List USR)) (visited : List USR)
      (paths : List (List USR)),
    (∀ e ∈ queue, EntryOK cg u0 L visited e) →
    (∀ e ∈ nq, EntryOK cg u0 (L + 1) visited e) →
    (∀ e ∈ (bfsLevel cg to_usrs queue nq visited paths).1,
      EntryOK cg u0 (L + 1) (bfsLevel cg to_usrs queue nq visited paths).2.1 e) ∧
    (∀ x ∈ visited, x ∈ (bfsLevel cg to_usrs queue nq visited paths).2.1) ∧
    (∃ newPaths,
      (bfsLevel cg to_usrs queue nq visited paths).2.2 = paths ++ newPaths ∧
      ∀ p ∈ newPaths, p.head? = some u0 ∧ (∃ t ∈ to_usrs, p.getLast? = some t) ∧
        p.Nodup ∧ p.length = L ∧
        List.Chain' (fun x y => y ∈ cg.find_callees x) p)
  | [], nq, visited, paths, _hq, hnq =>
      ⟨hnq, fun x hx => hx, ⟨[], (List.append_nil paths).symm, by simp⟩⟩
  | (cur, path) :: qrest, nq, visited, paths, hq, hnq => by
      have hec : EntryOK cg u0 L visited (cur, path) :=
        hq (cur, path) (List.mem_cons.mpr (Or.inl rfl))
      have hqr : ∀ e ∈ qrest, EntryOK cg u0 L visited e :=
        fun e he => hq e (List.mem_cons.mpr (Or.inr he))
      rw [show bfsLevel cg to_usrs ((cur, path) :: qrest) nq visited paths =
        (if cur ∈ to_usrs then
          bfsLevel cg to_usrs qrest nq visited (paths ++ [path])
        else
          bfsLevel cg to_usrs qrest
            (bfsExpand path (cg.find_callees cur) (nq, visited)).1
            (bfsExpand path (cg.find_callees cur) (nq, visited)).2
            paths) from rfl]
      by_cases ht : cur ∈ to_usrs
      · rw [if_pos ht]
        obtain ⟨H1, H2, np, hnp, hnpp⟩ :=
          bfsLevel_ok cg u0 to_usrs L qrest nq visited (paths ++ [path]) hqr hnq
        refine ⟨H1, H2, ⟨[path] ++ np, ?_, ?_⟩⟩
        · rw [hnp, List.append_assoc]
        · intro p hp
          rcases List.mem_append.mp hp with hp | hp
          · rw [List.mem_singleton] at hp
            subst hp
            exact ⟨hec.1, ⟨cur, ht, hec.2.1⟩, hec.2.2.1, hec.2.2.2.1,
              hec.2.2.2.2.1⟩
          · exact hnpp p hp
      · rw [if_neg ht]
        obtain ⟨E1, E2⟩ := bfsExpand_ok cg u0 cur L path hec.1 hec.2.1
          hec.2.2.1 hec.2.2.2.1 hec.2.2.2.2.1 (cg.find_callees cur) nq visited
          hec.2.2.2.2.2 (fun c h2 => h2) hnq
        have hqr2 : ∀ e ∈ qrest,
            EntryOK cg u0 L (bfsExpand path (cg.find_callees cur) (nq, visited)).2 e :=
          fun e he => EntryOK_mono cg u0 L visited _ e E2 (hqr e he)
        obtain ⟨H1, H2, np, hnp, hnpp⟩ :=
          bfsLevel_ok cg u0 to_usrs L qrest
            (bfsExpand path (cg.find_callees cur) (nq, visited)).1
            (bfsExpand path (cg.find_callees cur) (nq, visited)).2
            paths hqr2 E1
        exact ⟨H1, fun x hx => H2 x (E2 x hx), ⟨np, hnp, hnpp⟩⟩

theorem bfsRun_sound (cg : CallGraphAnalyzer) (u0 : USR) (to_usrs : List USR)
    (n : Nat) :
    ∀ (fuel L : Nat) (queue : List (USR × List USR)) (visited : List USR)
      (paths : List (List USR)),
    (∀ e ∈ queue, EntryOK cg u0 L visited e) →
    L + fuel ≤ n + 1 →
    ∀ p ∈ bfsRun cg to_usrs fuel queue visited paths,
      p ∈ paths ∨ PathOK cg u0 to_usrs n p
  | 0, _L, _queue, _visited, _paths, _hq, _hLn => fun _p hp => Or.inl hp
  | fuel + 1, L, queue, visited, paths, hq, hLn => by
      by_cases hqe : queue = []
      · rw [show bfsRun cg to_usrs (fuel + 1) queue visited paths =
          (if queue = [] then paths else
            bfsRun cg to_usrs fuel
              (bfsLevel cg to_usrs queue [] visited paths).1
              (bfsLevel cg to_usrs queue [] visited paths).2.1
              (bfsLevel cg to_usrs queue [] visited paths).2.2) from rfl,
          if_pos hqe]
        exact fun p hp => Or.inl hp
      · rw [show bfsRun cg to_usrs (fuel + 1) queue visited paths =
          (if queue = [] then paths else
            bfsRun cg to_usrs fuel
              (bfsLevel cg to_usrs queue [] visited paths).1
              (bfsLevel cg to_usrs queue [] visited paths).2.1
              (bfsLevel cg to_usrs queue [] visited paths).2.2) from rfl,
          if_neg hqe]
        obtain ⟨H1, _H2, np, hnp, hnpp⟩ :=
          bfsLevel_ok cg u0 to_usrs L queue [] visited paths hq (by simp)
        intro p hp
        have H := bfsRun_sound cg u0 to_usrs n fuel (L + 1) _ _ _ H1
          (by omega) p hp
        rcases H with hin | hok
        · rw [hnp] at hin
          rcases List.mem_append.mp hin with h | h
          · exact Or.inl h
          · obtain ⟨h1, h2, h3, h4, h5⟩ := hnpp p h
            exact Or.inr ⟨h1, h2, h3, by omega, h5⟩
        · exact Or.inr hok

theorem sorted_le_of_all_eq (c : Nat) :
    ∀ (l : List Nat), (∀ x ∈ l, x = c) → List.Sorted (· ≤ ·) l
  | [], _ => List.sorted_nil
  | a :: l, h => by
      rw [List.sorted_cons]
      refine ⟨?_, sorted_le_of_all_eq c l
        (fun x hx => h x (List.mem_cons.mpr (Or.inr hx)))⟩
      intro b hb
      rw [h a (List.mem_cons.mpr (Or.inl rfl)),
        h b (List.mem_cons.mpr (Or.inr hb))]

theorem bfsRun_sorted (cg : CallGraphAnalyzer) (u0 : USR) (to_usrs : List USR) :
    ∀ (fuel L : Nat) (queue : List (USR × List USR)) (visited : List USR)
      (paths : List (List USR)),
    (∀ e ∈ queue, EntryOK cg u0 L visited e) →
    List.Sorted (· ≤ ·) (paths.map List.length) →
    (∀ p ∈ paths, p.length ≤ L) →
    List.Sorted (· ≤ ·) ((bfsRun cg to_usrs fuel queue visited paths).map
      List.length)
  | 0, _L, _queue, _visited, _paths, _hq, hs, _hb => hs
  | fuel + 1, L, queue, visited, paths, hq, hs, hb => by
      by_cases hqe : queue = []
      · rw [show bfsRun cg to_usrs (fuel + 1) queue visited paths =
          (if queue = [] then paths else
            bfsRun cg to_usrs fuel
              (bfsLevel cg to_usrs queue [] visited paths).1
              (bfsLevel cg to_usrs queue [] visited paths).2.1
              (bfsLevel cg to_usrs queue [] visited paths).2.2) from rfl,
          if_pos hqe]
        exact hs
      · rw [show bfsRun cg to_usrs (fuel + 1) queue visited paths =
          (if queue = [] then paths else
            bfsRun cg to_usrs fuel
              (bfsLevel cg to_usrs queue [] visited paths).1
              (bfsLevel cg to_usrs queue [] visited paths).2.1
              (bfsLevel cg to_usrs queue [] visited paths).2.2) from rfl,
          if_neg hqe]
        obtain ⟨H1, _H2, np, hnp, hnpp⟩ :=
          bfsLevel_ok cg u0 to_usrs L queue [] visited paths hq (by simp)
        refine bfsRun_sorted cg u0 to_usrs fuel (L + 1) _ _ _ H1 ?_ ?_
        · rw [hnp, List.map_append]
          refine List.pairwise_append.mpr
            ⟨hs, sorted_le_of_all_eq L (np.map List.length) ?_, ?_⟩
          · intro x hx
            obtain ⟨p, hp, hpx⟩ := List.mem_map.mp hx
            rw [← hpx]
            exact (hnpp p hp).2.2.2.1
          · intro a ha b hb3
            obtain ⟨p, hp, hpa⟩ := List.mem_map.mp ha
            obtain ⟨q2, hq2, hqb⟩ := List.mem_map.mp hb3
            rw [← hpa, ← hqb, (hnpp q2 hq2).2.2.2.1]
            exact hb p hp
        · intro p hp
          rw [hnp] at hp
          rcases List.mem_append.mp hp with h | h
          · exact Nat.le_succ_of_le (hb p h)
          · rw [(hnpp p h).2.2.2.1]
            exact Nat.le_succ L


theorem singleton_entry_ok (cg : CallGraphAnalyzer) (u : USR) :
    EntryOK cg u 1 [u] (u, [u]) :=
  ⟨rfl, rfl, List.nodup_singleton u, rfl, List.chain'_singleton u, by simp⟩

theorem fold_bfs_sound (cg : CallGraphAnalyzer) (to_usrs : List USR) (n : Nat)
    (uset : List USR) :
    ∀ (us : List USR) (acc : List (List USR)),
    (∀ u ∈ us, u ∈ uset) →
    (∀ p ∈ acc, ∃ u0 ∈ uset, PathOK cg u0 to_usrs n p) →
    ∀ p ∈ us.foldl (fun paths from_usr =>
        bfsRun cg to_usrs n [(from_usr, [from_usr])] [from_usr] paths) acc,
      ∃ u0 ∈ uset, PathOK cg u0 to_usrs n p
  | [], _acc, _hsub, hacc => hacc
  | u :: rest, acc, hsub, hacc => by
      rw [List.foldl_cons]
      refine fold_bfs_sound cg to_usrs n uset rest _
        (fun x hx => hsub x (List.mem_cons.mpr (Or.inr hx))) ?_
      intro p hp
      have H := bfsRun_sound cg u to_usrs n n 1 [(u, [u])] [u] acc
        (by
          intro e he
          rw [List.mem_singleton] at he
          subst he
          exact singleton_entry_ok cg u)
        (by omega) p hp
      rcases H with h | h
      · exact hacc p h
      · exact ⟨u, hsub u (List.mem_cons.mpr (Or.inl rfl)), h⟩

/-- C6: the claim that `get_call_path` returns exactly the simple callee
paths of at most `max_depth` edges is false (see the counterexample: a
2-edge chain is missed at `max_depth = 2`, because the loop runs
`max_depth` levels counting the source level, and the globally shared
visited set can also hide alternative paths through shared nodes).  The
sound direction and the BFS ordering do hold, and are stated here: every
returned name path is the image under `namePathOf` of a simple callee-USR
chain that starts at a USR of the from-function, ends at a USR of the
to-function, and has at most `max_depth` nodes (hence at most
`max_depth - 1` edges); and each per-source BFS appends its results in
nondecreasing length order, so shorter paths appear before longer ones. -/
theorem C6_amended_bfs_sound_ordered (st : CppAnalyzer)
    (from_function to_function : String) (max_depth : Nat) :
    (∀ q ∈ CppAnalyzer.get_call_path st from_function to_function max_depth,
      ∃ u0 ∈ usrsForName st.function_index
          (searchFunctionsWith st.function_index (exactCI from_function)
            false none),
        ∃ p, PathOK st.call_graph_analyzer u0
            (usrsForName st.function_index
              (searchFunctionsWith st.function_index (exactCI to_function)
                false none))
            max_depth p ∧
          q = namePathOf st.usr_index p) ∧
    (∀ (cg : CallGraphAnalyzer) (to_usrs : List USR) (u : USR),
      List.Sorted (· ≤ ·)
        ((bfsRun cg to_usrs max_depth [(u, [u])] [u] []).map List.length)) := by
  constructor
  · intro q hq
    unfold CppAnalyzer.get_call_path at hq
    dsimp only at hq
    by_cases h0 :
        searchFunctionsWith st.function_index (exactCI from_function)
          false none = [] ∨
        searchFunctionsWith st.function_index (exactCI to_function)
          false none = []
    · rw [if_pos h0] at hq
      exact absurd hq (List.not_mem_nil q)
    · rw [if_neg h0] at hq
      obtain ⟨p, hp, hpq⟩ := List.mem_map.mp hq
      obtain ⟨u0, hu0, hok⟩ := fold_bfs_sound st.call_graph_analyzer
        (usrsForName st.function_index
          (searchFunctionsWith st.function_index (exactCI to_function)
            false none))
        max_depth
        (usrsForName st.function_index
          (searchFunctionsWith st.function_index (exactCI from_function)
            false none))
        (usrsForName st.function_index
          (searchFunctionsWith st.function_index (exactCI from_function)
            false none))
        [] (fun u hu => hu) (by simp) p hp
      exact ⟨u0, hu0, p, hok, hpq.symm⟩
  · intro cg to_usrs u
    refine bfsRun_sorted cg u to_usrs max_depth 1 [(u, [u])] [u] [] ?_
      List.sorted_nil (by simp)
    intro e he
    rw [List.mem_singleton] at he
    subst he
    exact singleton_entry_ok cg u

/-- Concrete run of the C6 soundness theorem: on the 2-edge chain the
search at `max_depth = 3` does return the full path, and it is the image
of a simple USR chain certified by the theorem. -/
theorem C6_witness :
    ["a", "b", "t"] ∈ CppAnalyzer.get_call_path exStC "a" "t" 3 ∧
    (∃ u0 ∈ usrsForName exStC.function_index
        (searchFunctionsWith exStC.function_index (exactCI "a") false none),
      ∃ p, PathOK exStC.call_graph_analyzer u0
          (usrsForName exStC.function_index
            (searchFunctionsWith exStC.function_index (exactCI "t") false none))
          3 p ∧
        ["a", "b", "t"] = namePathOf exStC.usr_index p) :=
  ⟨by decide,
    (C6_amended_bfs_sound_ordered exStC "a" "t" 3).1 ["a", "b", "t"] (by decide)⟩

/-! ### Class hierarchy walks (C9) -/

/-- Direct base-class names of a class (cpp_analyzer.py, lines 784-790 and
753-759): concatenate `base_classes` over the records stored under the
name and deduplicate (`list(set(...))`; Python set order is unspecified,
modelled as first-occurrence order). -/
def basesOfName (idx : List (String × List SymbolInfo)) (c : String) :
    List String :=
  (((lookupM idx c).getD []).flatMap (fun info => info.base_classes)).dedup

/-- `CppAnalyzer.get_derived_classes` (cpp_analyzer.py, lines 702-731):
every record in the class index whose `base_classes` contains the name,
optionally restricted to project records. -/
def get_derived_classes (idx : List (String × List SymbolInfo))
    (class_name : String) (project_only : Bool) : List SymbolInfo :=
  idx.flatMap (fun p => p.2.filter
    (fun info => (!project_only || info.is_project) &&
      decide (class_name ∈ info.base_classes)))

/-- Every base-class name mentioned anywhere in the class index. -/
def allBaseNames (idx : List (String × List SymbolInfo)) : List String :=
  idx.flatMap (fun p => p.2.flatMap (fun info => info.base_classes))

/-- Every class name the hierarchy walks can recurse into: keys of the
class index plus all mentioned base names. -/
def namesUniverse (idx : List (String × List SymbolInfo)) : List String :=
  keysOf idx ++ allBaseNames idx

/-- Result tree of `_get_base_hierarchy` / `_get_derived_hierarchy`: the
Python dicts `{name, circular_reference: True}` and
`{name, base_classes/derived_classes: [...]}`. -/
inductive HierNode where
  | circular (name : String) : HierNode
  | node (name : String) (children : List HierNode) : HierNode

theorem mem_keysOf_of_base (idx : List (String × List SymbolInfo))
    (c b : String) (h : b ∈ basesOfName idx c) : c ∈ keysOf idx := by
  unfold basesOfName at h
  rw [List.mem_dedup] at h
  cases hl : lookupM idx c with
  | none =>
      rw [hl] at h
      simp at h
  | some l =>
      have := lookupM_mem idx c l hl
      unfold keysOf
      exact List.mem_map.mpr ⟨(c, l), this, rfl⟩

theorem mem_allBase_of_derived (idx : List (String × List SymbolInfo))
    (c d : String)
    (h : d ∈ (get_derived_classes idx c false).map (fun info => info.name)) :
    c ∈ allBaseNames idx := by
  obtain ⟨r, hr, _⟩ := List.mem_map.mp h
  unfold get_derived_classes at hr
  rw [List.mem_flatMap] at hr
  obtain ⟨p, hp, hr2⟩ := hr
  rw [List.mem_filter] at hr2
  have hc : c ∈ r.base_classes := by
    have h2 := hr2.2
    simp only [Bool.and_eq_true, decide_eq_true_eq] at h2
    exact h2.2
  unfold allBaseNames
  rw [List.mem_flatMap]
  refine ⟨p, hp, ?_⟩
  rw [List.mem_flatMap]
  exact ⟨r, hr2.1, hc⟩

theorem card_measure_lt (U visited : List String) (c : String)
    (hc : c ∈ U) (hnv : ¬ c ∈ visited) :
    (U.toFinset \ (c :: visited).toFinset).card <
      (U.toFinset \ visited.toFinset).card := by
  have hcin : c ∈ U.toFinset \ visited.toFinset :=
    Finset.mem_sdiff.mpr ⟨List.mem_toFinset.mpr hc,
      fun h => hnv (List.mem_toFinset.mp h)⟩
  have hsub : U.toFinset \ (c :: visited).toFinset ⊆
      U.toFinset \ visited.toFinset := by
    intro x hx
    rw [Finset.mem_sdiff] at hx ⊢
    refine ⟨hx.1, fun hxv => hx.2 ?_⟩
    rw [List.toFinset_cons]
    exact Finset.mem_insert_of_mem hxv
  apply Finset.card_lt_card
  rw [Finset.ssubset_iff_of_subset hsub]
  refine ⟨c, hcin, ?_⟩
  intro hcmem
  rw [Finset.mem_sdiff, List.toFinset_cons] at hcmem
  exact hcmem.2 (Finset.mem_insert_self c _)

/-- `CppAnalyzer._get_base_hierarchy` (cpp_analyzer.py, lines 775-801):
on a revisited name return the circular marker; else recurse into every
direct base with the current name added to the (per-branch copied)
visited set. -/
def get_base_hierarchy (idx : List (String × List SymbolInfo))
    (class_name : String) (visited : List String) : HierNode :=
  if hvis : class_name ∈ visited then HierNode.circular class_name
  else
    HierNode.node class_name
      ((basesOfName idx class_name).attach.map
        (fun b => get_base_hierarchy idx b.1 (class_name :: visited)))
termination_by ((namesUniverse idx).toFinset \ visited.toFinset).card
decreasing_by
  simp_wf
  rw [← List.toFinset_cons]
  exact card_measure_lt (namesUniverse idx) visited class_name
    (List.mem_append.mpr (Or.inl (mem_keysOf_of_base idx class_name b.1 b.2)))
    hvis

/-- `CppAnalyzer._get_derived_hierarchy` (cpp_analyzer.py, lines 803-824):
same walk over derived-class names (`project_only=False`). -/
def get_derived_hierarchy (idx : List (String × List SymbolInfo))
    (class_name : String) (visited : List String) : HierNode :=
  if hvis : class_name ∈ visited then HierNode.circular class_name
  else
    HierNode.node class_name
      (((get_derived_classes idx class_name false).map
          (fun info => info.name)).attach.map
        (fun d => get_derived_hierarchy idx d.1 (class_name :: visited)))
termination_by ((namesUniverse idx).toFinset \ visited.toFinset).card
decreasing_by
  simp_wf
  rw [← List.toFinset_cons]
  exact card_measure_lt (namesUniverse idx) visited class_name
    (List.mem_append.mpr (Or.inr (mem_allBase_of_derived idx class_name d.1 d.2)))
    hvis

theorem get_base_hierarchy_circular (idx : List (String × List SymbolInfo))
    (c : String) (visited : List String) (h : c ∈ visited) :
    get_base_hierarchy idx c visited = HierNode.circular c := by
  unfold get_base_hierarchy
  rw [dif_pos h]

theorem get_base_hierarchy_eq (idx : List (String × List SymbolInfo))
    (c : String) (visited : List String) (h : ¬ c ∈ visited) :
    get_base_hierarchy idx c visited =
      HierNode.node c ((basesOfName idx c).map
        (fun b => get_base_hierarchy idx b (c :: visited))) := by
  rw [show get_base_hierarchy idx c visited = HierNode.node c
      ((basesOfName idx c).attach.map
        (fun b => get_base_hierarchy idx b.1 (c :: visited))) from by
    rw [get_base_hierarchy.eq_def]
    rw [dif_neg h]]
  rw [List.attach_map_val (basesOfName idx c)
    (fun b => get_base_hierarchy idx b (c :: visited))]

theorem get_derived_hierarchy_circular (idx : List (String × List SymbolInfo))
    (c : String) (visited : List String) (h : c ∈ visited) :
    get_derived_hierarchy idx c visited = HierNode.circular c := by
  unfold get_derived_hierarchy
  rw [dif_pos h]

theorem get_derived_hierarchy_eq (idx : List (String × List SymbolInfo))
    (c : String) (visited : List String) (h : ¬ c ∈ visited) :
    get_derived_hierarchy idx c visited =
      HierNode.node c
        (((get_derived_classes idx c false).map (fun info => info.name)).map
          (fun d => get_derived_hierarchy idx d (c :: visited))) := by
  rw [show get_derived_hierarchy idx c visited = HierNode.node c
      (((get_derived_classes idx c false).map (fun info => info.name)).attach.map
        (fun d => get_derived_hierarchy idx d.1 (c :: visited))) from by
    rw [get_derived_hierarchy.eq_def]
    rw [dif_neg h]]
  rw [List.attach_map_val
    ((get_derived_classes idx c false).map (fun info => info.name))
    (fun d => get_derived_hierarchy idx d (c :: visited))]

mutual

/-- Height of a hierarchy tree: the recursion depth the Python walk used
to build it. -/
def hierHeight : HierNode → Nat
  | HierNode.circular _ => 1
  | HierNode.node _ children => 1 + hierHeightList children

/-- Maximum height over a list of child trees. -/
def hierHeightList : List HierNode → Nat
  | [] => 0
  | h :: t => max (hierHeight h) (hierHeightList t)

end

theorem hierHeightList_le (m : Nat) :
    ∀ (l : List HierNode), (∀ x ∈ l, hierHeight x ≤ m) → hierHeightList l ≤ m
  | [], _ => by
      have h0 : hierHeightList [] = 0 := by simp [hierHeightList]
      omega
  | h :: t, hall => by
      have he : hierHeightList (h :: t) = max (hierHeight h) (hierHeightList t) := by
        simp [hierHeightList]
      rw [he]
      exact max_le (hall h (List.mem_cons.mpr (Or.inl rfl)))
        (hierHeightList_le m t (fun x hx => hall x (List.mem_cons.mpr (Or.inr hx))))

theorem get_base_hierarchy_height (idx : List (String × List SymbolInfo)) :
    ∀ (n : Nat) (c : String) (visited : List String),
    ((namesUniverse idx).toFinset \ visited.toFinset).card ≤ n →
    hierHeight (get_base_hierarchy idx c visited) ≤ n + 1
  | 0, c, visited, hn => by
      by_cases hv : c ∈ visited
      · rw [get_base_hierarchy_circular idx c visited hv]
        have h1 : hierHeight (HierNode.circular c) = 1 := by simp [hierHeight]
        omega
      · rw [get_base_hierarchy_eq idx c visited hv]
        have hnode : hierHeight (HierNode.node c ((basesOfName idx c).map
            (fun b => get_base_hierarchy idx b (c :: visited)))) =
            1 + hierHeightList ((basesOfName idx c).map
              (fun b => get_base_hierarchy idx b (c :: visited))) := by
          simp [hierHeight]
        rw [hnode]
        cases hbc : basesOfName idx c with
        | nil =>
            rw [List.map_nil]
            have h0 : hierHeightList ([] : List HierNode) = 0 := by
              simp [hierHeightList]
            omega
        | cons b0 bs =>
            exfalso
            have hcU : c ∈ namesUniverse idx :=
              List.mem_append.mpr (Or.inl (mem_keysOf_of_base idx c b0
                (by rw [hbc]; exact List.mem_cons.mpr (Or.inl rfl))))
            have hpos : 0 <
                ((namesUniverse idx).toFinset \ visited.toFinset).card :=
              Finset.card_pos.mpr ⟨c, Finset.mem_sdiff.mpr
                ⟨List.mem_toFinset.mpr hcU,
                  fun h2 => hv (List.mem_toFinset.mp h2)⟩⟩
            omega
  | n + 1, c, visited, hn => by
      by_cases hv : c ∈ visited
      · rw [get_base_hierarchy_circular idx c visited hv]
        have h1 : hierHeight (HierNode.circular c) = 1 := by simp [hierHeight]
        omega
      · rw [get_base_hierarchy_eq idx c visited hv]
        have hnode : hierHeight (HierNode.node c ((basesOfName idx c).map
            (fun b => get_base_hierarchy idx b (c :: visited)))) =
            1 + hierHeightList ((basesOfName idx c).map
              (fun b => get_base_hierarchy idx b (c :: visited))) := by
          simp [hierHeight]
        rw [hnode]
        have hch : ∀ x ∈ (basesOfName idx c).map
            (fun b => get_base_hierarchy idx b (c :: visited)),
            hierHeight x ≤ n + 1 := by
          intro x hx
          obtain ⟨b, hb, hbx⟩ := List.mem_map.mp hx
          have hcU : c ∈ namesUniverse idx :=
            List.mem_append.mpr (Or.inl (mem_keysOf_of_base idx c b hb))
          have hlt := card_measure_lt (namesUniverse idx) visited c hcU hv
          rw [← hbx]
          exact get_base_hierarchy_height idx n b (c :: visited) (by omega)
        have hl := hierHeightList_le (n + 1) _ hch
        omega

theorem get_derived_hierarchy_height (idx : List (String × List SymbolInfo)) :
    ∀ (n : Nat) (c : String) (visited : List String),
    ((namesUniverse idx).toFinset \ visited.toFinset).card ≤ n →
    hierHeight (get_derived_hierarchy idx c visited) ≤ n + 1
  | 0, c, visited, hn => by
      by_cases hv : c ∈ visited
      · rw [get_derived_hierarchy_circular idx c visited hv]
        have h1 : hierHeight (HierNode.circular c) = 1 := by simp [hierHeight]
        omega
      · rw [get_derived_hierarchy_eq idx c visited hv]
        have hnode : hierHeight (HierNode.node c
            (((get_derived_classes idx c false).map (fun info => info.name)).map
              (fun d => get_derived_hierarchy idx d (c :: visited)))) =
            1 + hierHeightList
              (((get_derived_classes idx c false).map (fun info => info.name)).map
                (fun d => get_derived_hierarchy idx d (c :: visited))) := by
          simp [hierHeight]
        rw [hnode]
        cases hbc : (get_derived_classes idx c false).map (fun info => info.name) with
        | nil =>
            rw [List.map_nil]
            have h0 : hierHeightList ([] : List HierNode) = 0 := by
              simp [hierHeightList]
            omega
        | cons d0 ds =>
            exfalso
            have hcU : c ∈ namesUniverse idx :=
              List.mem_append.mpr (Or.inr (mem_allBase_of_derived idx c d0
                (by rw [hbc]; exact List.mem_cons.mpr (Or.inl rfl))))
            have hpos : 0 <
                ((namesUniverse idx).toFinset \ visited.toFinset).card :=
              Finset.card_pos.mpr ⟨c, Finset.mem_sdiff.mpr
                ⟨List.mem_toFinset.mpr hcU,
                  fun h2 => hv (List.mem_toFinset.mp h2)⟩⟩
            omega
  | n + 1, c, visited, hn => by
      by_cases hv : c ∈ visited
      · rw [get_derived_hierarchy_circular idx c visited hv]
        have h1 : hierHeight (HierNode.circular c) = 1 := by simp [hierHeight]
        omega
      · rw [get_derived_hierarchy_eq idx c visited hv]
        have hnode : hierHeight (HierNode.node c
            (((get_derived_classes idx c false).map (fun info => info.name)).map
              (fun d => get_derived_hierarchy idx d (c :: visited)))) =
            1 + hierHeightList
              (((get_derived_classes idx c false).map (fun info => info.name)).map
                (fun d => get_derived_hierarchy idx d (c :: visited))) := by
          simp [hierHeight]
        rw [hnode]
        have hch : ∀ x ∈ ((get_derived_classes idx c false).map
              (fun info => info.name)).map
            (fun d => get_derived_hierarchy idx d (c :: visited)),
            hierHeight x ≤ n + 1 := by
          intro x hx
          obtain ⟨d, hd, hdx⟩ := List.mem_map.mp hx
          have hcU : c ∈ namesUniverse idx :=
            List.mem_append.mpr (Or.inr (mem_allBase_of_derived idx c d hd))
          have hlt := card_measure_lt (namesUniverse idx) visited c hcU hv
          rw [← hdx]
          exact get_derived_hierarchy_height idx n d (c :: visited) (by omega)
        have hl := hierHeightList_le (n + 1) _ hch
        omega

/-- Class record `A : public B` for the cyclic-inheritance example. -/
def recCA : SymbolInfo :=
  { name := "A", kind := "class", file := "h.hpp", line := 1, column := 1,
    base_classes := ["B"] }

/-- Class record `B : public A`, closing the inheritance cycle. -/
def recCB : SymbolInfo :=
  { name := "B", kind := "class", file := "h.hpp", line := 2, column := 1,
    base_classes := ["A"] }

/-- Class index with the two-class inheritance cycle `A -> B -> A`. -/
def idxCyc : List (String × List SymbolInfo) := [("A", [recCA]), ("B", [recCB])]

/-- C9: the hierarchy walks of `get_class_hierarchy` terminate on every
class index, cyclic inheritance included.  A revisited name returns the
`circular_reference` marker without recursing (first conjunct, for both
walks); the recursion depth of either walk is bounded by the number of
class names not yet visited, so the walk always terminates (second
conjunct: tree height is at most that count plus one); on the concrete
two-class cycle `A -> B -> A` both walks from `A` produce exactly the
tree `A -> B -> circular A` (last two conjuncts). -/
theorem C9_hierarchy_terminates_with_circular_marker
    (idx : List (String × List SymbolInfo)) (c : String)
    (visited : List String) (n : Nat) :
    (c ∈ visited →
      get_base_hierarchy idx c visited = HierNode.circular c ∧
      get_derived_hierarchy idx c visited = HierNode.circular c) ∧
    (((namesUniverse idx).toFinset \ visited.toFinset).card ≤ n →
      hierHeight (get_base_hierarchy idx c visited) ≤ n + 1 ∧
      hierHeight (get_derived_hierarchy idx c visited) ≤ n + 1) ∧
    get_base_hierarchy idxCyc "A" [] =
      HierNode.node "A" [HierNode.node "B" [HierNode.circular "A"]] ∧
    get_derived_hierarchy idxCyc "A" [] =
      HierNode.node "A" [HierNode.node "B" [HierNode.circular "A"]] := by
  refine ⟨fun hv => ⟨get_base_hierarchy_circular idx c visited hv,
      get_derived_hierarchy_circular idx c visited hv⟩,
    fun hn => ⟨get_base_hierarchy_height idx n c visited hn,
      get_derived_hierarchy_height idx n c visited hn⟩, ?_, ?_⟩
  · rw [get_base_hierarchy_eq idxCyc "A" [] (by decide),
      show basesOfName idxCyc "A" = ["B"] from rfl,
      List.map_cons, List.map_nil,
      get_base_hierarchy_eq idxCyc "B" ["A"] (by decide),
      show basesOfName idxCyc "B" = ["A"] from rfl,
      List.map_cons, List.map_nil,
      get_base_hierarchy_circular idxCyc "A" ["B", "A"] (by decide)]
  · rw [get_derived_hierarchy_eq idxCyc "A" [] (by decide),
      show (get_derived_classes idxCyc "A" false).map (fun info => info.name) =
        ["B"] from rfl,
      List.map_cons, List.map_nil,
      get_derived_hierarchy_eq idxCyc "B" ["A"] (by decide),
      show (get_derived_classes idxCyc "B" false).map (fun info => info.name) =
        ["A"] from rfl,
      List.map_cons, List.map_nil,
      get_derived_hierarchy_circular idxCyc "A" ["B", "A"] (by decide)]

/-- Concrete run of the C9 theorem on the cyclic index: a revisited name
yields the circular marker, and the walk height from a fresh start is
bounded by the universe size plus one. -/
theorem C9_witness :
    get_base_hierarchy idxCyc "A" ["A"] = HierNode.circular "A" ∧
    get_derived_hierarchy idxCyc "A" ["A"] = HierNode.circular "A" ∧
    hierHeight (get_base_hierarchy idxCyc "B" []) ≤ 3 :=
  ⟨((C9_hierarchy_terminates_with_circular_marker idxCyc "A" ["A"] 2).1
      (by decide)).1,
    ((C9_hierarchy_terminates_with_circular_marker idxCyc "A" ["A"] 2).1
      (by decide)).2,
    ((C9_hierarchy_terminates_with_circular_marker idxCyc "B" [] 2).2.1
      (by decide)).1⟩
